import Mathlib

/-!
Shallow embedding of the findb on-disk B+ tree (src/btree/file.rs) and its
CLOCK page cache (src/btree/cache.rs), with theorems checking the
natural-language specification against the code.

Modelling conventions:
* Rust `u32` values are `Nat`; wrap-around is written explicitly where the
  source can underflow (`u32sub1`).
* A page buffer is modelled at field granularity: the fixed byte layout
  (big-endian u32 fields at fixed offsets) is a bijection between the byte
  view and the record below, and every accessor of the Rust `Page` trait
  reads or writes exactly one field, so the record view is faithful.  The
  page-cache claims that are genuinely about byte offsets (C2) use a second,
  byte-level model of the same functions.
* `f32` values are only ever stored and re-read, never computed with, so a
  leaf value is modelled as the opaque 4-byte payload, an arbitrary `Nat`.
* Rust panics (out-of-range slice writes) and infinite loops are modelled
  with `Option`/fuel, `none` marking the abnormal outcome.
-/

namespace FinDb

/-- u32::max_value(), the sentinel for "no previous leaf". -/
def U32MAX : Nat := 4294967295

/-- Wrap-around u32 subtraction of one, as `n - 1` behaves on a Rust u32
(release build): `0 - 1` wraps to `0xFFFF_FFFF`. -/
def u32sub1 (n : Nat) : Nat := (n + U32MAX) % (U32MAX + 1)

/-- Key from file.rs: ordered triple of u32, compared lexicographically
(the derived `PartialOrd` on field order). -/
structure Key where
  asset_id : Nat
  date : Nat
  timestamp : Nat
deriving DecidableEq, Repr

instance : Inhabited Key := ⟨⟨0, 0, 0⟩⟩

/-- Lexicographic comparison on (asset_id, date, timestamp), the derived
`partial_cmp` of file.rs (total on u32 fields). -/
def Key.cmp (a b : Key) : Ordering :=
  match compare a.asset_id b.asset_id with
  | Ordering.eq =>
    match compare a.date b.date with
    | Ordering.eq => compare a.timestamp b.timestamp
    | o => o
  | o => o

def LEAF_TYPE : Nat := 0
def INNER_TYPE : Nat := 1
def PAGE_HEADER_SIZE : Nat := 16
def KEY_VALUE_SIZE : Nat := 16

/-- `(page_size - PAGE_HEADER_SIZE) / KEY_VALUE_SIZE`, the key capacity of a
page buffer of `page_size` bytes (Page::key_capacity). -/
def keyCapacity (page_size : Nat) : Nat :=
  (page_size - PAGE_HEADER_SIZE) / KEY_VALUE_SIZE

/-- `page_size_for_keys` from file.rs. -/
def page_size_for_keys (num_keys : Nat) : Nat :=
  PAGE_HEADER_SIZE + num_keys * KEY_VALUE_SIZE

/-- Field-granularity view of one fixed-size page buffer.  `slots` has one
entry per key slot of the buffer (`key_capacity` many): the 12 key bytes and
the 4 payload bytes (leaf value bits, or child page number on inner pages).
When `page_size - PAGE_HEADER_SIZE` is not a multiple of KEY_VALUE_SIZE the
buffer ends in up to 15 slack bytes past the last slot; `slack_key` is the
first 12 of them parsed as a key (zero bytes parse as ⟨0, 0, 0⟩), which is
where `set_key(key_capacity, ..)` lands when at least 12 slack bytes exist.
A zeroed buffer is `Page.new cap LEAF_TYPE` (LEAF_TYPE = 0). -/
structure Page where
  page_type : Nat
  num_keys : Nat
  extra : Nat
  slots : List (Key × Nat)
  slack_key : Key
deriving DecidableEq, Repr

instance : Inhabited Page := ⟨⟨0, 0, 0, [], default⟩⟩

/-- `PageBuffer::new`: zero-filled buffer with the page type stamped.
`PageBuffer::clear` re-zeroes the whole buffer (including the type byte,
which becomes LEAF_TYPE = 0), so a cleared leaf buffer equals `new cap 0`. -/
def Page.new (cap : Nat) (page_type : Nat) : Page :=
  ⟨page_type, 0, 0, List.replicate cap (default, 0), default⟩

def Page.key_capacity (p : Page) : Nat := p.slots.length

/-- `Page::key` reads the 12 bytes at offset `PAGE_HEADER_SIZE +
KEY_VALUE_SIZE * i`: slot `i`'s key bytes for `i < key_capacity`, and the
slack bytes for `i = key_capacity` (readable only when at least 12 slack
bytes exist; larger indices are out of bounds in Rust and unreachable). -/
def Page.key (p : Page) (i : Nat) : Key :=
  if i < p.slots.length then (p.slots.getD i (default, 0)).1 else p.slack_key

/-- The 4 payload bytes of slot `i` read as a child page number
(Page::page_number). -/
def Page.pageNumber (p : Page) (i : Nat) : Nat := (p.slots.getD i (default, 0)).2

/-- The 4 payload bytes of slot `i` read as the stored value (Page::value);
the f32 bits are carried opaquely. -/
def Page.value (p : Page) (i : Nat) : Nat := (p.slots.getD i (default, 0)).2

/-- `MutPage::set_key` writes the 12 key bytes at offset `PAGE_HEADER_SIZE +
KEY_VALUE_SIZE * i`: into slot `i` for `i < key_capacity`, into the slack
bytes for `i = key_capacity` (possible only when at least 12 slack bytes
exist — the finalisation loop guards that; larger indices are out of bounds
in Rust and unreachable). -/
def Page.set_key (p : Page) (i : Nat) (k : Key) : Page :=
  if i < p.slots.length then
    { p with slots := p.slots.set i (k, (p.slots.getD i (default, 0)).2) }
  else { p with slack_key := k }

def Page.set_payload (p : Page) (i : Nat) (v : Nat) : Page :=
  { p with slots := p.slots.set i ((p.slots.getD i (default, 0)).1, v) }

/-- `set_page_number` and `set_value` both write the 4 payload bytes. -/
def Page.set_page_number (p : Page) (i : Nat) (v : Nat) : Page := p.set_payload i v

def Page.set_value (p : Page) (i : Nat) (v : Nat) : Page := p.set_payload i v

def Page.set_num_keys (p : Page) (n : Nat) : Page := { p with num_keys := n }

def Page.set_extra_page_num (p : Page) (n : Nat) : Page := { p with extra := n }

/-- The binary-search loop of `Page::index_of` (file.rs lines 149-170) on the
half-open range `[mn, mx)`.  Each iteration shrinks `mx - mn` by at least one,
so any fuel ≥ mx - mn reproduces the Rust loop exactly (the fuel-0 fallback
is unreachable then). -/
def Page.indexOfAux (p : Page) (k : Key) : Nat → Nat → Nat → Nat
  | 0, mn, _ => mn
  | fuel + 1, mn, mx =>
    if mn < mx then
      match Key.cmp k (p.key ((mx + mn) / 2)) with
      | Ordering.gt => p.indexOfAux k fuel ((mx + mn) / 2 + 1) mx
      | Ordering.lt => p.indexOfAux k fuel mn ((mx + mn) / 2)
      | Ordering.eq =>
        if p.page_type = LEAF_TYPE then (mx + mn) / 2 else (mx + mn) / 2 + 1
    else mn

/-- `Page::index_of`: binary search over `[0, num_keys)`. -/
def Page.index_of (p : Page) (k : Key) : Nat := p.indexOfAux k p.num_keys 0 p.num_keys

/-! ## The bulk loader (BTree::write_from_iterator, BTree::add_to_parent) -/

/-- File header record (page_size, page_count, root_page_num). -/
structure FileHeader where
  page_size : Nat
  page_count : Nat
  root_page_num : Nat
deriving DecidableEq, Repr

/-- `BTree::add_to_parent` (file.rs lines 381-423).  `page_number` is the
Rust `&mut PageNumber`; the result carries its final value, the updated
lineage, and the list of finalised ("filled") inner pages in the order the
Rust `Vec` holds them (the caller writes them reversed).  The recursion stops
at `index = lineage.length`, `index` grows by one per call and the lineage
keeps its length, so any fuel ≥ lineage.length + 1 - index reproduces the
Rust recursion exactly (the fuel-0 fallback is unreachable then). -/
def addToParent (k : Key) (page_size : Nat) :
    Nat → Nat → Nat → List Page → Nat × List Page × List Page
  | 0, page_number, _, lineage => (page_number, lineage, [])
  | fuel + 1, page_number, index, lineage =>
    if index = lineage.length then
      let inner_buf := (Page.new (keyCapacity page_size) INNER_TYPE).set_page_number 0 page_number
      (page_number, lineage ++ [inner_buf], [])
    else
      let node := lineage.getD index default
      let num_keys := node.num_keys
      let key_capacity := node.key_capacity
      if num_keys < key_capacity then
        let node := node.set_key num_keys k
        let node :=
          if num_keys < key_capacity - 1 then node.set_page_number (num_keys + 1) page_number
          else node.set_extra_page_num page_number
        let node := node.set_num_keys (num_keys + 1)
        (page_number, lineage.set index node, [])
      else
        -- the node is full: replace it in the lineage by a fresh inner buffer
        -- (push + swap_remove), reserve the next page number for it, and
        -- propagate (same key, reserved page number) one level up.
        let new_inner_buf := Page.new (keyCapacity page_size) INNER_TYPE
        let lineage' := lineage.set index new_inner_buf
        let r := addToParent k page_size fuel (page_number + 1) (index + 1) lineage'
        (r.1, r.2.1, r.2.2 ++ [node])

/-- State of the main loop of `BTree::write_from_iterator`: the pages written
so far (in file order), the in-memory leaf buffer, and the loop variables. -/
structure BuildState where
  file : List Page
  leaf_buf : Page
  page_count : Nat
  last_leaf : Nat
  lineage : List Page
deriving Repr

/-- The inner `while key_index < key_capacity` loop filling the leaf buffer
from the source: writes key and value at successive indices and bumps
`num_keys` each step. -/
def fillLeafAux (leaf : Page) (i : Nat) : List (Key × Nat) → Page
  | [] => leaf
  | (k, v) :: rest =>
    fillLeafAux (((leaf.set_key i k).set_value i v).set_num_keys (i + 1)) (i + 1) rest

/-- One-iteration-per-leaf form of the `while peekable_source.peek().is_some()`
loop of `write_from_iterator` (file.rs lines 318-349).  When
`keyCapacity page_size = 0` the Rust loop never terminates (it keeps writing
empty leaves); the model stops in that unreachable configuration.  Otherwise
every iteration consumes at least one source element, so any fuel ≥ the length
of the remaining source reproduces the loop exactly. -/
def buildLoop (page_size : Nat) : Nat → List (Key × Nat) → BuildState → BuildState
  | _, [], st => st
  | 0, _ :: _, st => st
  | fuel + 1, a :: l, st =>
    if keyCapacity page_size = 0 then st
    else
      let src := a :: l
      let st :=
        if st.last_leaf < U32MAX then
          let r := addToParent (st.leaf_buf.key 0) page_size (st.lineage.length + 1)
            st.page_count 0 st.lineage
          { file := st.file ++ r.2.2.reverse
            leaf_buf := Page.new (keyCapacity page_size) LEAF_TYPE
            page_count := r.1 + 1
            last_leaf := st.last_leaf
            lineage := r.2.1 }
        else st
      let chunk := src.take (keyCapacity page_size)
      let rest := src.drop (keyCapacity page_size)
      let leaf := (fillLeafAux st.leaf_buf 0 chunk).set_extra_page_num st.last_leaf
      buildLoop page_size fuel rest
        { file := st.file ++ [leaf]
          leaf_buf := leaf
          page_count := st.page_count
          last_leaf := st.page_count
          lineage := st.lineage }

/-- The `for index in 0..lineage.len()` finalisation loop of
`write_from_iterator` (file.rs lines 353-369).  The body has no bounds
check of its own: `set_key(num_keys, ..)` writes the 12 key bytes at byte
offset `PAGE_HEADER_SIZE + KEY_VALUE_SIZE * num_keys` of the
`page_size`-byte buffer, which panics (out-of-bounds slice) when fewer than
12 bytes lie past that offset — that outcome is `none` — and lands in the
page's slack bytes when `num_keys` equals the key capacity but
`(page_size - PAGE_HEADER_SIZE) % KEY_VALUE_SIZE ≥ 12`.  The child pointer
then goes to slot `num_keys + 1` when `num_keys < key_capacity - 1` and to
the `extra` header field otherwise (on a full node this overwrites the
extra child installed by `add_to_parent`).  The loop runs once per lineage
level, so any fuel ≥ lineage.length + 1 - index reproduces it exactly (the
fuel-0 fallback is then unreachable). -/
def finalizeLoop (page_size : Nat) : Nat → Nat → BuildState → Option BuildState
  | 0, _, _ => none
  | fuel + 1, index, st =>
    if index < st.lineage.length then
      let last_key := st.leaf_buf.key 0
      let node := st.lineage.getD index default
      let num_keys := node.num_keys
      if PAGE_HEADER_SIZE + KEY_VALUE_SIZE * num_keys + 12 ≤ page_size then
        let node := node.set_key num_keys last_key
        let node :=
          if num_keys < keyCapacity page_size - 1 then
            node.set_page_number (num_keys + 1) (st.page_count - 1)
          else node.set_extra_page_num (st.page_count - 1)
        let node := node.set_num_keys (num_keys + 1)
        finalizeLoop page_size fuel (index + 1)
          { file := st.file ++ [node]
            leaf_buf := st.leaf_buf
            page_count := st.page_count + 1
            last_leaf := st.last_leaf
            lineage := st.lineage.set index node }
      else none
    else some st

/-- Initial state of `write_from_iterator`. -/
def initialBuildState (page_size : Nat) : BuildState :=
  ⟨[], Page.new (keyCapacity page_size) LEAF_TYPE, 0, U32MAX, []⟩

/-- `BTree::write_from_iterator` (file.rs lines 296-379): returns the pages
of the produced file, in file order, and the header that is rewritten at the
end, or `none` when the finalisation loop panics. -/
def writeFromIterator (page_size : Nat) (src : List (Key × Nat)) :
    Option (List Page × FileHeader) :=
  let st := buildLoop page_size src.length src (initialBuildState page_size)
  let st := { st with page_count := st.page_count + 1 }
  (finalizeLoop page_size (st.lineage.length + 1) 0 st).map fun st =>
    (st.file, ⟨page_size, st.page_count, st.page_count - 1⟩)

/-! ## The CLOCK page cache (cache.rs)

The cache is modelled twice.  The primary model works at page granularity:
the backing file is the list of its pages, and reading `page_size` bytes at
byte offset `header_bytes + n * page_size` is reading page `n` (the 12-byte
file header occupies `[0, header_bytes)`).  A byte-granularity model of the
same `load`/`page_from_slot` pair follows, for the claims that are about the
byte offsets themselves. -/

/-- The CLOCK reference-bit state (struct Clock of cache.rs).  The Rust
bitmap has `ceil(slots/8) * 8` bits but only indices `< slots` are ever
used, so a list of `slots` booleans is the same state. -/
structure Clock where
  bits : List Bool
  slots : Nat
  slot_index : Nat
deriving DecidableEq, Repr

def Clock.new (slots : Nat) : Clock := ⟨List.replicate slots false, slots, 0⟩

def Clock.set (c : Clock) (slot : Nat) : Clock := { c with bits := c.bits.set slot true }

def Clock.unset (c : Clock) (slot : Nat) : Clock := { c with bits := c.bits.set slot false }

def Clock.test (c : Clock) (slot : Nat) : Bool := c.bits.getD slot false

def Clock.advance (c : Clock) : Clock :=
  { c with slot_index := (c.slot_index + 1) % c.slots }

/-- The `while self.test(self.slot_index)` loop of `Clock::evict`.  Every
iteration clears a set bit and no bit is ever set inside the loop, so the
Rust loop runs at most `slots` times; fuel `slots + 1` therefore reproduces
it exactly. -/
def Clock.evictLoop : Nat → Clock → Clock
  | 0, c => c
  | fuel + 1, c =>
    if c.test c.slot_index then Clock.evictLoop fuel ((c.unset c.slot_index).advance)
    else c

/-- `Clock::evict`: the victim slot and the clock state after the hand moves
past it. -/
def Clock.evict (c : Clock) : Nat × Clock :=
  let c := Clock.evictLoop (c.slots + 1) c
  (c.slot_index, c.advance)

/-- Association-list lookup standing for `HashMap::get`. -/
def alookup : List (Nat × Nat) → Nat → Option Nat
  | [], _ => none
  | (k, v) :: rest, key => if k = key then some v else alookup rest key

/-- `HashMap::insert`: replaces the value when the key is present, otherwise
appends, so the list length is the number of distinct keys (`HashMap::len`). -/
def ainsert : List (Nat × Nat) → Nat → Nat → List (Nat × Nat)
  | [], key, v => [(key, v)]
  | (k, w) :: rest, key, v =>
    if k = key then (k, v) :: rest else (k, w) :: ainsert rest key v

/-- struct PageCache (cache.rs), at page granularity.  `file` is the pages
of the backing file; `pages` is the slot count; `bufs` are the slot buffers
(zero-filled at construction, which decodes as an empty leaf page). -/
structure PageCache where
  file : List Page
  page_size : Nat
  pages : Nat
  bufs : List Page
  clock : Clock
  page_map : List (Nat × Nat)
  slot_map : List (Nat × Nat)
deriving Repr

/-- `PageCache::new`. -/
def PageCache.new (file : List Page) (page_size : Nat) (pages : Nat) : PageCache :=
  ⟨file, page_size, pages, List.replicate pages (Page.new (keyCapacity page_size) LEAF_TYPE),
    Clock.new pages, [], []⟩

/-- `PageCache::page_from_slot` (cache.rs lines 115-127).  The Rust code
seeks the file to `slot_number * page_size + header_bytes` — the slot number,
not the page number, chooses the file region — and a `read` past the end of
the file transfers nothing, leaving the slot buffer unchanged. -/
def PageCache.page_from_slot (c : PageCache) (slot_number : Nat) (read : Bool) :
    PageCache × Page :=
  let c :=
    if read ∧ slot_number < c.file.length then
      { c with bufs := c.bufs.set slot_number (c.file.getD slot_number default) }
    else c
  let c := { c with clock := c.clock.set slot_number }
  (c, c.bufs.getD slot_number default)

/-- `PageCache::load` (cache.rs lines 95-113). -/
def PageCache.load (c : PageCache) (page_number : Nat) : PageCache × Page :=
  match alookup c.page_map page_number with
  | some slot_number =>
    let c := { c with clock := c.clock.set slot_number }
    c.page_from_slot slot_number false
  | none =>
    let sc : Nat × PageCache :=
      if c.page_map.length < c.pages then (c.page_map.length, c)
      else
        let r := c.clock.evict
        (r.1, { c with clock := r.2 })
    let slot_number := sc.1
    let c := sc.2
    let c := { c with page_map := ainsert c.page_map page_number slot_number,
                      slot_map := ainsert c.slot_map slot_number page_number }
    c.page_from_slot slot_number true

/-! ## Byte-granularity model of the cache, for the offset arithmetic -/

/-- Overlay `bytes` onto `buf` starting at `offset` (what
`Read::read(&mut slot_buf)` does when it returns `bytes.length`). -/
def writeBytes (buf : List Nat) (offset : Nat) (bytes : List Nat) : List Nat :=
  (buf.take offset) ++ bytes ++ buf.drop (offset + bytes.length)

/-- struct PageCache again, keeping the backing file and the slot pool as
raw byte lists. -/
structure ByteCache where
  fileBytes : List Nat
  page_size : Nat
  pages : Nat
  header_bytes : Nat
  buf : List Nat
  clock : Clock
  page_map : List (Nat × Nat)
  slot_map : List (Nat × Nat)
deriving Repr

def ByteCache.new (fileBytes : List Nat) (page_size pages header_bytes : Nat) : ByteCache :=
  ⟨fileBytes, page_size, pages, header_bytes, List.replicate (page_size * pages) 0,
    Clock.new pages, [], []⟩

/-- Byte-level `PageCache::page_from_slot`: the file is sought to
`page_start + header_bytes` where `page_start = slot_number * page_size`,
and up to `page_size` bytes are read into `buf[page_start..page_end]`. -/
def ByteCache.page_from_slot (c : ByteCache) (slot_number : Nat) (read : Bool) :
    ByteCache × List Nat :=
  let page_start := slot_number * c.page_size
  let c :=
    if read then
      let offset := page_start + c.header_bytes
      let bytes := (c.fileBytes.drop offset).take c.page_size
      { c with buf := writeBytes c.buf page_start bytes }
    else c
  let c := { c with clock := c.clock.set slot_number }
  (c, (c.buf.drop page_start).take c.page_size)

/-- Byte-level `PageCache::load`. -/
def ByteCache.load (c : ByteCache) (page_number : Nat) : ByteCache × List Nat :=
  match alookup c.page_map page_number with
  | some slot_number =>
    let c := { c with clock := c.clock.set slot_number }
    c.page_from_slot slot_number false
  | none =>
    let sc : Nat × ByteCache :=
      if c.page_map.length < c.pages then (c.page_map.length, c)
      else
        let r := c.clock.evict
        (r.1, { c with clock := r.2 })
    let slot_number := sc.1
    let c := sc.2
    let c := { c with page_map := ainsert c.page_map page_number slot_number,
                      slot_map := ainsert c.slot_map slot_number page_number }
    c.page_from_slot slot_number true

/-- The bytes of page `page_no` as laid out on disk: the file is a 12-byte
header followed by a dense array of `page_size`-byte pages. -/
def diskPageBytes (fileBytes : List Nat) (header_bytes page_size page_no : Nat) : List Nat :=
  (fileBytes.drop (header_bytes + page_no * page_size)).take page_size

/-! ## Opening a file (BTree::from_file) and querying -/

/-- Big-endian u32 read of the first four bytes (`read_u32` of file.rs);
missing bytes of a short read stay zero, as in `FileHeaderBuffer::from_file`
whose 12-byte buffer starts zeroed and whose `file.read` may fill less. -/
def read_u32 (buf : List Nat) : Nat :=
  buf.getD 0 0 * 16777216 + buf.getD 1 0 * 65536 + buf.getD 2 0 * 256 + buf.getD 3 0

/-- `FileHeaderBuffer::get` applied to the bytes `FileHeaderBuffer::from_file`
reads from the start of the file. -/
def parseFileHeader (fileBytes : List Nat) : FileHeader :=
  ⟨read_u32 fileBytes, read_u32 (fileBytes.drop 4), read_u32 (fileBytes.drop 8)⟩

/-- `BTree::from_file` (file.rs lines 281-292): reads the 12 header bytes and
builds the handle.  No field of the header is validated — the only failure
path is a file-read error, which an in-memory byte list cannot produce — so
the result is always a handle. -/
def BTree.from_file (fileBytes : List Nat) (page_cache_size : Nat) :
    Option (FileHeader × ByteCache) :=
  let file_header := parseFileHeader fileBytes
  some (file_header, ByteCache.new fileBytes file_header.page_size page_cache_size 12)

/-- struct Query of file.rs. -/
structure Query where
  id : Nat
  asset_id : Nat
  start_date : Nat
  end_date : Nat
  timestamp : Nat
deriving Repr

/-- struct QueryResult of file.rs (value = opaque f32 payload). -/
structure QueryResult where
  id : Nat
  key : Key
  value : Nat
deriving DecidableEq, Repr

/-- The probe key `BTree::query` builds from a query. -/
def probeKey (q : Query) : Key := ⟨q.asset_id, q.end_date, q.timestamp⟩

/-- The `while page.page_type() == INNER_TYPE` descent loop of `BTree::query`
(file.rs lines 434-443).  Fuel bounds the loop; a malformed file could cycle,
and `none` is the still-descending-when-fuel-runs-out outcome. -/
def descendLoop : Nat → PageCache → Page → Nat → Key → Option (PageCache × Nat × Page)
  | 0, _, _, _, _ => none
  | fuel + 1, c, page, page_num, k =>
    if page.page_type = INNER_TYPE then
      let index := page.index_of k
      let page_num' := if index < page.key_capacity then page.pageNumber index else page.extra
      let r := c.load page_num'
      descendLoop fuel r.1 r.2 page_num' k
    else some (c, page_num, page)

/-- State of `QueryResultIterator`. -/
structure IterState where
  cache : PageCache
  page_num : Nat
  key_index : Option Nat
  query : Query
  last_yielded_date : Option Nat
  pages_read : Nat
deriving Repr

/-- `BTree::query` (file.rs lines 425-452): descend from the root, then clamp
the leaf index with the wrap-around u32 `num_keys() - 1`. -/
def BTree.query (root_page_num : Nat) (cache : PageCache) (q : Query) (fuel : Nat) :
    Option IterState :=
  let r := cache.load root_page_num
  match descendLoop fuel r.1 r.2 root_page_num (probeKey q) with
  | none => none
  | some (c, page_num, page) =>
    let key_index := min (page.index_of (probeKey q)) (u32sub1 page.num_keys)
    some ⟨c, page_num, some key_index, q, none, 1⟩

inductive StepState where
  | cont : StepState
  | yieldNone : StepState
  | yieldSome : QueryResult → StepState
deriving Repr

/-- `QueryResultIterator::iterate` (file.rs lines 526-570). -/
def IterState.iterate (st : IterState) : IterState × StepState :=
  let r := st.cache.load st.page_num
  let st := { st with cache := r.1 }
  let page := r.2
  match st.key_index with
  | none =>
    if page.extra = U32MAX then (st, StepState.yieldNone)
    else
      let st := { st with page_num := page.extra, pages_read := st.pages_read + 1 }
      let r := st.cache.load st.page_num
      ({ st with cache := r.1, key_index := some (u32sub1 r.2.num_keys) }, StepState.cont)
  | some key_index =>
    let k := page.key key_index
    if k.asset_id < st.query.asset_id ∨ k.date < st.query.start_date then
      (st, StepState.yieldNone)
    else
      let st := { st with key_index := if key_index = 0 then none else some (key_index - 1) }
      match st.last_yielded_date with
      | none =>
        if k.asset_id > st.query.asset_id ∨ k.date > st.query.end_date ∨
            k.timestamp > st.query.timestamp then
          (st, StepState.cont)
        else (st, StepState.yieldSome ⟨st.query.id, k, page.value key_index⟩)
      | some d =>
        if d = k.date ∨ k.timestamp > st.query.timestamp then (st, StepState.cont)
        else (st, StepState.yieldSome ⟨st.query.id, k, page.value key_index⟩)

/-- `QueryResultIterator::next` (file.rs lines 508-524): step until the state
is not Continue; on a yielded result record `last_yielded_date`.  Fuel bounds
the loop (a malformed file could make it spin); `none` on exhaustion. -/
def IterState.next : Nat → IterState → IterState × Option QueryResult
  | 0, st => (st, none)
  | fuel + 1, st =>
    match st.iterate with
    | (st, StepState.cont) => IterState.next fuel st
    | (st, StepState.yieldNone) => (st, none)
    | (st, StepState.yieldSome r) =>
      ({ st with last_yielded_date := some r.key.date }, some r)

/-- Drive the iterator to exhaustion, collecting every yielded result (at
most `count` of them, with `fuel` step budget per `next`). -/
def IterState.collect : Nat → Nat → IterState → List QueryResult
  | 0, _, _ => []
  | count + 1, fuel, st =>
    match st.next fuel with
    | (_, none) => []
    | (st, some r) => r :: IterState.collect count fuel st

/-- Run `BTree::query` on an existing handle (cache state included) and
collect every result the iterator yields. -/
def runQueryFrom (cache : PageCache) (root_page_num : Nat) (q : Query) (fuel : Nat) :
    List QueryResult :=
  match BTree.query root_page_num cache q fuel with
  | none => []
  | some st => IterState.collect fuel fuel st

/-- Open-and-query pipeline at page granularity: the page cache is built the
way `BTree::from_file` builds it (all slots zeroed, empty maps), then
`BTree::query` runs and the iterator is driven to exhaustion.  The fuel is
ample for every file of this development. -/
def runQuery (file : List Page) (hdr : FileHeader) (cache_slots : Nat) (q : Query) :
    List QueryResult :=
  runQueryFrom (PageCache.new file hdr.page_size cache_slots) hdr.root_page_num q
    (file.length * 16 + 17)

/-- Load pages `0, 1, …, n-1` in order, as `BTree::print` does before the
queries of the repository's own test run. -/
def loadAll (cache : PageCache) (n : Nat) : PageCache :=
  (List.range n).foldl (fun c i => (c.load i).1) cache

/-! ## The concrete dataset of spec §8 (the repository's `test_small`)

Leaf values are f32 and only ever stored and re-read, so each value is
represented by its 4 payload bytes; here we pick the injective token
`10 × value` (1.0 ↦ 10, 12.0 ↦ 120, 2300.0 ↦ 23000, …). -/

def data18 : List (Key × Nat) :=
  [ (⟨0, 20200131, 0⟩, 10), (⟨0, 20200131, 10⟩, 20), (⟨0, 20200131, 20⟩, 30),
    (⟨0, 20200229, 5⟩, 110), (⟨0, 20200229, 15⟩, 120), (⟨0, 20200229, 25⟩, 130),
    (⟨0, 20200331, 10⟩, 1100), (⟨0, 20200331, 20⟩, 1200), (⟨0, 20200331, 25⟩, 1300),
    (⟨1, 20200229, 5⟩, 210), (⟨1, 20200229, 15⟩, 220), (⟨1, 20200229, 25⟩, 230),
    (⟨1, 20200331, 10⟩, 2200), (⟨1, 20200331, 20⟩, 2200), (⟨1, 20200331, 25⟩, 2300),
    (⟨1, 20200430, 10⟩, 21000), (⟨1, 20200430, 20⟩, 22000), (⟨1, 20200430, 25⟩, 23000) ]

/-- `page_size_for_keys 3 = 64`: the page size giving K = 3, as in the test. -/
def pageSize18 : Nat := page_size_for_keys 3

/-- The pages of the file built from `data18` (the build succeeds; see the
theorems below). -/
def file18 : List Page := ((writeFromIterator pageSize18 data18).getD ([], ⟨0, 0, 0⟩)).1

/-- The header of the file built from `data18`. -/
def header18 : FileHeader := ((writeFromIterator pageSize18 data18).getD ([], ⟨0, 0, 0⟩)).2

/-- Scenario S3 of spec §8. -/
def queryS3 : Query := ⟨0, 0, 20200115, 20200405, 20⟩

/-- Scenario S4 of spec §8. -/
def queryS4 : Query := ⟨0, 1, 20200315, 20200515, 21⟩

/-! ## Spec-side notions used to state the claims -/

/-- The child page number the navigator follows for a computed index:
key-slot child below `key_capacity`, the header's extra field at it
(file.rs lines 436-440). -/
def childAt (p : Page) (i : Nat) : Nat :=
  if i < p.key_capacity then p.pageNumber i else p.extra

/-- Each key of the source compares strictly below the next. -/
def keysStrictAscendingB : List (Key × Nat) → Bool
  | [] => true
  | [_] => true
  | a :: b :: rest =>
    (Key.cmp a.1 b.1 == Ordering.lt) && keysStrictAscendingB (b :: rest)

/-- The keys of the source are strictly ascending. -/
def keysStrictAscending (src : List (Key × Nat)) : Prop :=
  keysStrictAscendingB src = true

instance (src : List (Key × Nat)) : Decidable (keysStrictAscending src) :=
  inferInstanceAs (Decidable (keysStrictAscendingB src = true))

/-- The entries stored in a leaf page, in slot order. -/
def leafEntries (p : Page) : List (Key × Nat) := p.slots.take p.num_keys

/-- The leaf chain walk of spec §8 properties 4 and 6: starting from a page
number, visit it and repeatedly follow the `extra` back-pointer until the
sentinel `0xFFFF_FFFF`.  Fuel bounds the walk (a malformed file could have a
back-pointer cycle). -/
def walkChain (file : List Page) : Nat → Nat → List Nat
  | 0, _ => []
  | fuel + 1, pn =>
    if pn = U32MAX then []
    else pn :: walkChain file fuel (file.getD pn default).extra

/-- Enumerate, along the walk, each visited leaf's entries from last to
first. -/
def reverseWalkEntries (file : List Page) (fuel pn : Nat) : List (Key × Nat) :=
  (walkChain file fuel pn).flatMap fun p => (leafEntries (file.getD p default)).reverse

/-- The positions of the leaf pages of a file, in file (= write) order. -/
def leafPositions (file : List Page) : List Nat :=
  (List.range file.length).filter fun i => (file.getD i default).page_type = LEAF_TYPE

/-- 15 strictly ascending entries: with K = 3 they produce five full leaves,
which leaves `lineage[0]` holding 3 = K separators when the finalisation
loop runs. -/
def data15 : List (Key × Nat) :=
  (List.range 15).map fun i => (⟨0, 20200101 + i, 0⟩, i)

/-- Page size 60: K = 2 key slots with 12 slack bytes past them
((60 - 16) % 16 = 12), the regime where `set_key(K, ..)` still fits inside
the page buffer. -/
def pageSize60 : Nat := 60

/-- 7 strictly ascending entries: with page size 60 (K = 2) they produce
four leaves, so the finalisation loop meets `lineage[0]` full (holding
2 = K separators) — and completes, writing the last separator into the 12
slack bytes. -/
def data7 : List (Key × Nat) :=
  (List.range 7).map fun i => (⟨0, 20200101 + i, 0⟩, i)

/-- The pages of the file built from `data7` at page size 60 (the build
completes through the slack-byte branch of the finalisation loop). -/
def file7 : List Page := ((writeFromIterator pageSize60 data7).getD ([], ⟨0, 0, 0⟩)).1

/-- The header of the file built from `data7` at page size 60. -/
def header7 : FileHeader := ((writeFromIterator pageSize60 data7).getD ([], ⟨0, 0, 0⟩)).2

/-- A two-page backing file for the byte-level cache model: 12 header bytes
(zero), page 0 = [1,1,1,1], page 1 = [2,2,2,2], with page_size 4. -/
def twoPageFile : List Nat :=
  List.replicate 12 0 ++ [1, 1, 1, 1] ++ [2, 2, 2, 2]

/-- The first `num_keys` keys of a page are strictly ascending. -/
def KeysSorted (p : Page) : Prop :=
  ∀ j, j < p.num_keys → ∀ i, i < j → Key.cmp (p.key i) (p.key j) = Ordering.lt

instance (p : Page) : Decidable (KeysSorted p) :=
  inferInstanceAs (Decidable (∀ j, j < p.num_keys → ∀ i, i < j →
    Key.cmp (p.key i) (p.key j) = Ordering.lt))

/-- The back-pointer chain structure: `ps` lists, in reverse write order,
the positions of the leaves reachable from `last` by following `extra`;
positions strictly decrease along the chain and stay inside the file, and
the chain ends exactly when the pointer is the sentinel. -/
def ChainInv (file : List Page) : Nat → List Nat → Prop
  | last, [] => last = U32MAX
  | last, p :: ps =>
    last = p ∧ p < file.length ∧ (∀ q, q ∈ ps → q < p) ∧
      ChainInv file (file.getD p default).extra ps

/-- Total number of separators currently held by the in-flight lineage
builders (used to amortise the pages flushed by overflow cascades). -/
def lineageKeys (lineage : List Page) : Nat := (lineage.map Page.num_keys).sum

/-- Invariant of `write_from_iterator`'s main loop, relating the state to
`done`, the entries consumed so far: the file holds the leaves of `done` in
write order (interleaved with flushed inner pages), the last-written leaf is
at position `page_count` = file length - 1, the back-pointer chain from it
covers exactly the leaf positions in reverse, flattening the leaves in file
order yields `done`, every leaf is non-empty, the lineage holds only inner
pages of the right capacity, and file length plus in-flight separators is
bounded by twice the consumed entries. -/
def LoopInv (page_size : Nat) (done : List (Key × Nat)) (st : BuildState) : Prop :=
  (done = [] ∧ st = initialBuildState page_size) ∨
  (done ≠ [] ∧
    st.last_leaf = st.page_count ∧
    st.file.length = st.page_count + 1 ∧
    st.file.length + lineageKeys st.lineage ≤ 2 * done.length ∧
    st.lineage.length ≤ st.file.length ∧
    (∀ q, q ∈ st.lineage →
      q.page_type = INNER_TYPE ∧ q.key_capacity = keyCapacity page_size) ∧
    ∃ ps, ChainInv st.file st.last_leaf ps ∧
      ps.reverse = leafPositions st.file ∧
      (ps.reverse.map fun q => leafEntries (st.file.getD q default)).flatten = done ∧
      (∀ q, q ∈ ps → 1 ≤ (st.file.getD q default).num_keys))

/-! ## Theorems for the claims -/

/-- The binary-search result never exceeds the upper end of its range. -/
theorem Page.indexOfAux_le (p : Page) (k : Key) :
    ∀ fuel mn mx, mn ≤ mx → p.indexOfAux k fuel mn mx ≤ mx := by
  intro fuel
  induction fuel with
  | zero => intro mn mx h; simpa [Page.indexOfAux] using h
  | succ fuel ih =>
    intro mn mx h
    rw [Page.indexOfAux]
    by_cases hlt : mn < mx
    · simp only [if_pos hlt]
      cases hc : Key.cmp k (p.key ((mx + mn) / 2)) with
      | lt =>
        simp only [hc]
        exact le_trans (ih mn ((mx + mn) / 2) (by omega)) (by omega)
      | eq => simp only [hc]; split <;> omega
      | gt => simp only [hc]; exact ih ((mx + mn) / 2 + 1) mx (by omega)
    · simpa [if_neg hlt] using h

/-- `index_of` never exceeds `num_keys`, whatever the page contents. -/
theorem Page.index_of_le_num_keys (p : Page) (k : Key) : p.index_of k ≤ p.num_keys :=
  Page.indexOfAux_le p k p.num_keys 0 p.num_keys (Nat.zero_le _)

/-- `Key.cmp` returns `lt` exactly on lexicographically smaller keys. -/
theorem Key.cmp_eq_lt_iff (a b : Key) :
    Key.cmp a b = Ordering.lt ↔
      a.asset_id < b.asset_id ∨ (a.asset_id = b.asset_id ∧
        (a.date < b.date ∨ (a.date = b.date ∧ a.timestamp < b.timestamp))) := by
  rcases a with ⟨a1, a2, a3⟩
  rcases b with ⟨b1, b2, b3⟩
  unfold Key.cmp
  cases h1 : compare a1 b1 <;> cases h2 : compare a2 b2 <;> cases h3 : compare a3 b3 <;>
    simp_all [Nat.compare_eq_lt, Nat.compare_eq_eq, Nat.compare_eq_gt]
  all_goals omega

/-- `Key.cmp` returns `gt` exactly on lexicographically larger keys. -/
theorem Key.cmp_eq_gt_iff_arith (a b : Key) :
    Key.cmp a b = Ordering.gt ↔
      b.asset_id < a.asset_id ∨ (b.asset_id = a.asset_id ∧
        (b.date < a.date ∨ (b.date = a.date ∧ b.timestamp < a.timestamp))) := by
  rcases a with ⟨a1, a2, a3⟩
  rcases b with ⟨b1, b2, b3⟩
  unfold Key.cmp
  cases h1 : compare a1 b1 <;> cases h2 : compare a2 b2 <;> cases h3 : compare a3 b3 <;>
    simp_all [Nat.compare_eq_lt, Nat.compare_eq_eq, Nat.compare_eq_gt]
  all_goals omega

/-- `Key.cmp` returns `gt` exactly when the swapped comparison returns `lt`. -/
theorem Key.cmp_eq_gt_iff (a b : Key) :
    Key.cmp a b = Ordering.gt ↔ Key.cmp b a = Ordering.lt := by
  rw [Key.cmp_eq_gt_iff_arith, Key.cmp_eq_lt_iff]

/-- `Key.cmp` returns `eq` exactly on equal keys. -/
theorem Key.cmp_eq_eq_iff (a b : Key) : Key.cmp a b = Ordering.eq ↔ a = b := by
  rcases a with ⟨a1, a2, a3⟩
  rcases b with ⟨b1, b2, b3⟩
  unfold Key.cmp
  cases h1 : compare a1 b1 <;> cases h2 : compare a2 b2 <;> cases h3 : compare a3 b3 <;>
    simp_all [Nat.compare_eq_lt, Nat.compare_eq_eq, Nat.compare_eq_gt, Key.mk.injEq]
  all_goals omega

/-- Transitivity of the strict key order. -/
theorem Key.cmp_lt_trans {a b c : Key} (h1 : Key.cmp a b = Ordering.lt)
    (h2 : Key.cmp b c = Ordering.lt) : Key.cmp a c = Ordering.lt := by
  rw [Key.cmp_eq_lt_iff] at h1 h2 ⊢
  omega

/-- Bracketing property of the binary-search loop on a sorted page, under the
classic invariants: every key left of `mn` is below the probe and every key
from `mx` on is above it.  Then every key left of the result is below the
probe (or equal to it, on an inner page), and the key at the result is above
the probe (or equal to it, on a leaf). -/
theorem Page.indexOfAux_bracket (p : Page) (k : Key) (hs : KeysSorted p) :
    ∀ fuel mn mx, mx - mn ≤ fuel → mn ≤ mx → mx ≤ p.num_keys →
      (∀ j, j < mn → Key.cmp k (p.key j) = Ordering.gt) →
      (∀ j, mx ≤ j → j < p.num_keys → Key.cmp k (p.key j) = Ordering.lt) →
      (∀ j, j < p.indexOfAux k fuel mn mx →
          Key.cmp k (p.key j) = Ordering.gt ∨
            (p.page_type ≠ LEAF_TYPE ∧ Key.cmp k (p.key j) = Ordering.eq)) ∧
        (p.indexOfAux k fuel mn mx < p.num_keys →
          Key.cmp k (p.key (p.indexOfAux k fuel mn mx)) = Ordering.lt ∨
            (p.page_type = LEAF_TYPE ∧
              Key.cmp k (p.key (p.indexOfAux k fuel mn mx)) = Ordering.eq)) := by
  intro fuel
  induction fuel with
  | zero =>
    intro mn mx hf hle hnk hlo hhi
    have hmn : mn = mx := by omega
    rw [Page.indexOfAux]
    exact ⟨fun j hj => Or.inl (hlo j hj), fun hr => Or.inl (hhi mn (by omega) hr)⟩
  | succ fuel ih =>
    intro mn mx hf hle hnk hlo hhi
    rw [Page.indexOfAux]
    by_cases hlt : mn < mx
    · simp only [if_pos hlt]
      cases hc : Key.cmp k (p.key ((mx + mn) / 2)) with
      | gt =>
        refine ih ((mx + mn) / 2 + 1) mx (by omega) (by omega) hnk ?_ hhi
        intro j hj
        rcases Nat.lt_or_ge j ((mx + mn) / 2) with hj2 | hj2
        · have hjm := hs ((mx + mn) / 2) (by omega) j hj2
          rw [Key.cmp_eq_gt_iff] at hc ⊢
          exact Key.cmp_lt_trans hjm hc
        · have hje : j = (mx + mn) / 2 := by omega
          rw [hje]; exact hc
      | lt =>
        refine ih mn ((mx + mn) / 2) (by omega) (by omega) (by omega) hlo ?_
        intro j hj hjn
        rcases Nat.lt_or_ge ((mx + mn) / 2) j with hj2 | hj2
        · exact Key.cmp_lt_trans hc (hs j hjn ((mx + mn) / 2) hj2)
        · have hje : j = (mx + mn) / 2 := by omega
          rw [hje]; exact hc
      | eq =>
        have hk : k = p.key ((mx + mn) / 2) := (Key.cmp_eq_eq_iff _ _).1 hc
        by_cases ht : p.page_type = LEAF_TYPE
        · simp only [if_pos ht]
          constructor
          · intro j hj
            have hjm := hs ((mx + mn) / 2) (by omega) j hj
            refine Or.inl ?_
            rw [hk]
            exact (Key.cmp_eq_gt_iff _ _).2 hjm
          · intro _
            exact Or.inr ⟨ht, hc⟩
        · simp only [if_neg ht]
          constructor
          · intro j hj
            rcases Nat.lt_or_ge j ((mx + mn) / 2) with hj2 | hj2
            · have hjm := hs ((mx + mn) / 2) (by omega) j hj2
              refine Or.inl ?_
              rw [hk]
              exact (Key.cmp_eq_gt_iff _ _).2 hjm
            · have hje : j = (mx + mn) / 2 := by omega
              rw [hje]; exact Or.inr ⟨ht, hc⟩
          · intro hr
            have hjm := hs ((mx + mn) / 2 + 1) hr ((mx + mn) / 2) (by omega)
            rw [← hk] at hjm
            exact Or.inl hjm
    · simp only [if_neg hlt]
      exact ⟨fun j hj => Or.inl (hlo j hj), fun hr => Or.inl (hhi mn (by omega) hr)⟩

/-- C7: on a page with strictly ascending keys, the binary search returns the
leftmost index whose key is ≥ the probe — every key left of the result is
strictly below the probe, the key at the result (when in range) is not below
it — except that an exact match returns the matching index on a leaf and the
next index on an inner page; when the probe exceeds every key the result is
`num_keys`. -/
theorem c7_index_of_spec (p : Page) (k : Key) (hs : KeysSorted p) :
    p.index_of k ≤ p.num_keys ∧
    ((∀ j, j < p.num_keys → Key.cmp k (p.key j) = Ordering.gt) →
      p.index_of k = p.num_keys) ∧
    (p.page_type = LEAF_TYPE →
      (∀ j, j < p.index_of k → Key.cmp k (p.key j) = Ordering.gt) ∧
      (p.index_of k < p.num_keys → Key.cmp k (p.key (p.index_of k)) ≠ Ordering.gt)) ∧
    (p.page_type ≠ LEAF_TYPE →
      (∀ j, j < p.index_of k → Key.cmp k (p.key j) ≠ Ordering.lt) ∧
      (p.index_of k < p.num_keys → Key.cmp k (p.key (p.index_of k)) = Ordering.lt)) ∧
    (∀ i, i < p.num_keys → p.key i = k →
      (p.page_type = LEAF_TYPE → p.index_of k = i) ∧
      (p.page_type ≠ LEAF_TYPE → p.index_of k = i + 1)) := by
  have hb := Page.indexOfAux_bracket p k hs p.num_keys 0 p.num_keys (by omega) (by omega)
    (le_refl _) (fun j hj => absurd hj (Nat.not_lt_zero j))
    (fun j hj hjn => absurd hjn (by omega))
  obtain ⟨hbl, hbr⟩ := hb
  have hio : p.indexOfAux k p.num_keys 0 p.num_keys = p.index_of k := rfl
  rw [hio] at hbl hbr
  have hle := Page.index_of_le_num_keys p k
  refine ⟨hle, ?_, ?_, ?_, ?_⟩
  · intro hall
    by_contra hne
    have hlt : p.index_of k < p.num_keys := Nat.lt_of_le_of_ne hle hne
    rcases hbr hlt with h | ⟨_, h⟩ <;> · have := hall _ hlt; simp [h] at this
  · intro ht
    constructor
    · intro j hj
      rcases hbl j hj with h | ⟨hneq, _⟩
      · exact h
      · exact absurd ht hneq
    · intro hlt
      rcases hbr hlt with h | ⟨_, h⟩ <;> simp [h]
  · intro ht
    constructor
    · intro j hj
      rcases hbl j hj with h | ⟨_, h⟩ <;> simp [h]
    · intro hlt
      rcases hbr hlt with h | ⟨hleaf, _⟩
      · exact h
      · exact absurd hleaf ht
  · intro i hi hk
    have hcmp : Key.cmp k (p.key i) = Ordering.eq := (Key.cmp_eq_eq_iff _ _).2 hk.symm
    constructor
    · intro ht
      by_contra hne
      rcases Nat.lt_or_ge (p.index_of k) i with hlt | hge
      · have hr : p.index_of k < p.num_keys := by omega
        have hsort := hs i hi (p.index_of k) hlt
        rw [hk] at hsort
        have hgt : Key.cmp k (p.key (p.index_of k)) = Ordering.gt :=
          (Key.cmp_eq_gt_iff _ _).2 hsort
        rcases hbr hr with h | ⟨_, h⟩ <;> simp [hgt] at h
      · have hgt : i < p.index_of k := by omega
        rcases hbl i hgt with h | ⟨hneq, _⟩
        · simp [h] at hcmp
        · exact absurd ht hneq
    · intro ht
      by_contra hne
      rcases Nat.lt_or_ge (p.index_of k) (i + 1) with hlt | hge
      · have hr : p.index_of k < p.num_keys := by omega
        rcases hbr hr with h | ⟨hleaf, _⟩
        · rcases Nat.lt_or_ge (p.index_of k) i with hlt2 | hge2
          · have hsort := hs i hi _ hlt2
            rw [hk] at hsort
            have hgt : Key.cmp k (p.key (p.index_of k)) = Ordering.gt :=
              (Key.cmp_eq_gt_iff _ _).2 hsort
            simp [hgt] at h
          · have hri : p.index_of k = i := by omega
            rw [hri] at h
            simp [hcmp] at h
        · exact absurd hleaf ht
      · have hgt : i + 1 < p.index_of k := by omega
        have hin : i + 1 < p.num_keys := by omega
        have hsort := hs (i + 1) hin i (by omega)
        rw [hk] at hsort
        rcases hbl (i + 1) hgt with h | ⟨_, h⟩ <;> simp [hsort] at h

/-- C1: the spec claims that opening the §8 file (18 entries, K = 3) and
running scenario S3 yields exactly [120.0, 12.0, 3.0].  On the code, a query
on a freshly opened handle (cache slots all empty) yields only [3.0]: the
root load (page 8) lands in slot 0, and `PageCache::page_from_slot` seeks the
file to `slot * page_size + header`, returning leaf 0's bytes instead of the
root's.  The spec's sequence appears only when the cache was pre-warmed by
loading pages 0..8 in order, which maps every page to the slot of the same
number — exactly what the repository test does by calling print() first. -/
theorem c1_fresh_query_s3_diverges :
    (runQuery file18 header18 10 queryS3).map QueryResult.value = [30] ∧
    (runQuery file18 header18 10 queryS3).map QueryResult.value ≠ [1200, 120, 30] ∧
    (runQueryFrom (loadAll (PageCache.new file18 pageSize18 10) 9) header18.root_page_num
        queryS3 200).map QueryResult.value = [1200, 120, 30] :=
  ⟨by decide, by decide, by decide⟩

/-- C2: the spec claims `load(page_no)` reads the `page_size` bytes at file
offset `header_size + page_no * page_size`.  The code computes the offset
from the chosen slot number instead: on a fresh one-slot cache, `load 1`
stores into slot 0 and reads the bytes at `header + 0 * page_size` — the
on-disk bytes of page 0, not page 1. -/
theorem c2_load_reads_slot_offset :
    ((ByteCache.new twoPageFile 4 1 12).load 1).2 = diskPageBytes twoPageFile 12 4 0 ∧
    ((ByteCache.new twoPageFile 4 1 12).load 1).2 ≠ diskPageBytes twoPageFile 12 4 1 :=
  ⟨by decide, by decide⟩

/-- C3 counterexample: in the §8 file the first inner page (page 5) has
separator 0 = (0, 20200229, 5), while the child immediately preceding it is
leaf page 0, whose largest (last) key is (0, 20200131, 20): the propagated
separator is not the largest key of the preceding leaf (it is the first key
of the following one, `leaf_buf.key(0)` in file.rs line 320). -/
theorem c3_separator_not_largest_key :
    (file18.getD 5 default).page_type = INNER_TYPE ∧
    (file18.getD 5 default).key 0 = ⟨0, 20200229, 5⟩ ∧
    (file18.getD 5 default).pageNumber 0 = 0 ∧
    (file18.getD 0 default).page_type = LEAF_TYPE ∧
    (file18.getD 0 default).key ((file18.getD 0 default).num_keys - 1) = ⟨0, 20200131, 20⟩ ∧
    (file18.getD 5 default).key 0 ≠
      (file18.getD 0 default).key ((file18.getD 0 default).num_keys - 1) :=
  ⟨by decide, by decide, by decide, by decide, by decide, by decide⟩

/-- C3 amended: the key propagated into `lineage[0]` when a leaf is finished
is the first (smallest) key of that leaf, so each separator equals the first
key of the leaf whose completion installed it.  In the §8 file: the three
separators of page 5 are the first keys of leaf pages 1, 2, 3 — its children
after each separator (slots 1, 2 and then extra) — and the single separator
of pages 7 and 8 is the first key of the last leaf (page 6), whose completion
drove the finalisation that wrote both pages. -/
theorem c3_separator_is_first_key_of_next_leaf :
    ((file18.getD 5 default).key 0 = (file18.getD 1 default).key 0 ∧
      (file18.getD 5 default).key 1 = (file18.getD 2 default).key 0 ∧
      (file18.getD 5 default).key 2 = (file18.getD 3 default).key 0) ∧
    (childAt (file18.getD 5 default) 1 = 1 ∧
      childAt (file18.getD 5 default) 2 = 2 ∧
      childAt (file18.getD 5 default) 3 = 3) ∧
    ((file18.getD 7 default).key 0 = (file18.getD 6 default).key 0 ∧
      (file18.getD 8 default).key 0 = (file18.getD 6 default).key 0) :=
  ⟨⟨by decide, by decide, by decide⟩, ⟨by decide, by decide, by decide⟩,
    by decide, by decide⟩

/-- C4 counterexample: the root of the §8 file (page 8) is an inner page with
`num_keys = 1` whose last, second child (page 7) sits in key slot 1, not in
the header's extra field (which is 0, never written); descending with probe
key (1, 20200430, 25) computes the lower-bound index 1 = num_keys and
follows the key-slot child, not extra. -/
theorem c4_last_child_not_in_extra :
    (file18.getD 8 default).page_type = INNER_TYPE ∧
    (file18.getD 8 default).num_keys = 1 ∧
    (file18.getD 8 default).pageNumber 1 = 7 ∧
    (file18.getD 8 default).extra = 0 ∧
    (file18.getD 8 default).index_of ⟨1, 20200430, 25⟩ = 1 ∧
    childAt (file18.getD 8 default) 1 = 7 ∧
    childAt (file18.getD 8 default) 1 ≠ (file18.getD 8 default).extra :=
  ⟨by decide, by decide, by decide, by decide, by decide, by decide, by decide⟩

/-- C4 amended: only a full inner page (num_keys = K) keeps its last child in
the header's extra field; a non-full inner page keeps all of its children in
the key slots (the last one in slot num_keys), and its extra field is unused.
The navigator follows the key-slot child exactly when the computed index is
below `key_capacity` and extra exactly at `key_capacity`; the computed index
never exceeds `num_keys`, so on a non-full inner page extra is never
followed.  Concretely: in the §8 file the full page 5 has children 0, 1, 2
in its key slots and child 3 in extra; the non-full pages 7 and 8 have their
last child in key slot 1 and extra = 0. -/
theorem c4_children_layout :
    (∀ p : Page, ∀ k : Key, p.index_of k ≤ p.num_keys) ∧
    ((file18.getD 5 default).num_keys = (file18.getD 5 default).key_capacity ∧
      (file18.getD 5 default).pageNumber 0 = 0 ∧
      (file18.getD 5 default).pageNumber 1 = 1 ∧
      (file18.getD 5 default).pageNumber 2 = 2 ∧
      (file18.getD 5 default).extra = 3 ∧
      childAt (file18.getD 5 default) 3 = (file18.getD 5 default).extra) ∧
    ((file18.getD 7 default).num_keys = 1 ∧ (file18.getD 7 default).pageNumber 1 = 6 ∧
      (file18.getD 7 default).extra = 0) ∧
    ((file18.getD 8 default).num_keys = 1 ∧ (file18.getD 8 default).pageNumber 1 = 7 ∧
      (file18.getD 8 default).extra = 0) :=
  ⟨fun p k => Page.index_of_le_num_keys p k,
    ⟨by decide, by decide, by decide, by decide, by decide, by decide⟩,
    ⟨by decide, by decide, by decide⟩, by decide, by decide, by decide⟩

/-- C5: the spec claims eviction removes the evicted page's prior
(page_number, slot) pair from both maps, keeping them a bijection.  With one
slot, loading page 0 and then page 1 evicts page 0, but the code only
inserts the new pair: page_map afterwards holds both (0 → slot 0) and
(1 → slot 0), so two cached page numbers map to the same occupied slot. -/
theorem c5_stale_mapping_after_eviction :
    ((((PageCache.new file18 pageSize18 1).load 0).1.load 1).1.page_map = [(0, 0), (1, 0)]) ∧
    (alookup ((((PageCache.new file18 pageSize18 1).load 0).1.load 1).1.page_map) 0 = some 0) ∧
    (alookup ((((PageCache.new file18 pageSize18 1).load 0).1.load 1).1.page_map) 1 = some 0) ∧
    ((((PageCache.new file18 pageSize18 1).load 0).1.load 1).1.slot_map = [(0, 1)]) :=
  ⟨by decide, by decide, by decide, by decide⟩

/-- C6 counterexample: data15 is a non-empty, strictly ascending source, yet
the build does not produce a file at all: with K = 3 its five leaves leave
`lineage[0]` with 3 = K separators, and the finalisation loop's
`set_key(num_keys, ..)` writes past the end of the page (page size 64 has
no slack bytes past its 3 slots, so offset 64 + 12 > 64), a Rust panic
(modelled as `none`). -/
theorem c6_build_panics_on_five_full_leaves :
    data15 ≠ [] ∧ keysStrictAscending data15 ∧
    writeFromIterator pageSize18 data15 = none :=
  ⟨by decide, by decide, by decide⟩

/-- C7 witness: on the inner page 5 of the section-8 file, probing its
separator key (0, 20200331, 10) — an exact match at index 1 — returns
index 2, the strictly-greater side. -/
theorem c7_index_of_spec_witness :
    KeysSorted (file18.getD 5 default) ∧
    (file18.getD 5 default).index_of ⟨0, 20200331, 10⟩ = 2 :=
  ⟨by decide,
    ((c7_index_of_spec (file18.getD 5 default) ⟨0, 20200331, 10⟩ (by decide)).2.2.2.2 1
      (by decide) (by decide)).2 (by decide)⟩

/-- C8 counterexample: a file of 12 zero bytes parses to a header with
`page_size = 0` — the spec's example of a malformed header — yet
`BTree::from_file` returns a tree handle, not an error. -/
theorem c8_open_accepts_zero_page_size :
    (parseFileHeader (List.replicate 12 0)).page_size = 0 ∧
    (BTree.from_file (List.replicate 12 0) 10).isSome = true :=
  ⟨by decide, by decide⟩

/-- C8 amended: `BTree::from_file` performs no header validation at all: for
every byte content it parses the first 12 bytes as the header and returns a
handle built from it; its only failure path is an I/O error from the reads. -/
theorem c8_from_file_never_validates (fileBytes : List Nat) (page_cache_size : Nat) :
    BTree.from_file fileBytes page_cache_size =
      some (parseFileHeader fileBytes,
        ByteCache.new fileBytes (parseFileHeader fileBytes).page_size page_cache_size 12) :=
  rfl

/-- C9: query results are not independent of the handle's prior load history.
On the §8 file with 10 cache slots, scenario S4 yields [] on a fresh handle
but [2200.0, 220.0] after the handle loaded pages 0..8 in order (the
repository's print()): the slot-offset read bug makes the bytes a load
returns depend on which slot the page lands in, which depends on history. -/
theorem c9_results_depend_on_history :
    (runQueryFrom (PageCache.new file18 pageSize18 10) header18.root_page_num queryS4
        200).map QueryResult.value = [] ∧
    (runQueryFrom (loadAll (PageCache.new file18 pageSize18 10) 9) header18.root_page_num
        queryS4 200).map QueryResult.value = [22000, 2200] ∧
    (runQueryFrom (PageCache.new file18 pageSize18 10) header18.root_page_num queryS4
          200).map QueryResult.value ≠
      (runQueryFrom (loadAll (PageCache.new file18 pageSize18 10) 9) header18.root_page_num
          queryS4 200).map QueryResult.value :=
  ⟨by decide, by decide, by decide⟩


/-! ## The bulk-loader invariant: helper lemmas -/

@[simp] theorem Page.set_key_page_type (p : Page) (i : Nat) (k : Key) :
    (p.set_key i k).page_type = p.page_type := by
  unfold Page.set_key; split <;> rfl

@[simp] theorem Page.set_key_num_keys (p : Page) (i : Nat) (k : Key) :
    (p.set_key i k).num_keys = p.num_keys := by
  unfold Page.set_key; split <;> rfl

@[simp] theorem Page.set_key_extra (p : Page) (i : Nat) (k : Key) :
    (p.set_key i k).extra = p.extra := by
  unfold Page.set_key; split <;> rfl

@[simp] theorem Page.set_key_slots_length (p : Page) (i : Nat) (k : Key) :
    (p.set_key i k).slots.length = p.slots.length := by
  unfold Page.set_key; split <;> simp

@[simp] theorem Page.set_payload_slots_length (p : Page) (i v : Nat) :
    (p.set_payload i v).slots.length = p.slots.length := by
  simp [Page.set_payload]

@[simp] theorem Page.set_key_key_capacity (p : Page) (i : Nat) (k : Key) :
    (p.set_key i k).key_capacity = p.key_capacity := by
  simp [Page.key_capacity]

@[simp] theorem Page.set_payload_page_type (p : Page) (i v : Nat) :
    (p.set_payload i v).page_type = p.page_type := rfl

@[simp] theorem Page.set_payload_num_keys (p : Page) (i v : Nat) :
    (p.set_payload i v).num_keys = p.num_keys := rfl

@[simp] theorem Page.set_payload_extra (p : Page) (i v : Nat) :
    (p.set_payload i v).extra = p.extra := rfl

@[simp] theorem Page.set_payload_key_capacity (p : Page) (i v : Nat) :
    (p.set_payload i v).key_capacity = p.key_capacity := by
  simp [Page.set_payload, Page.key_capacity]

@[simp] theorem Page.set_page_number_eq (p : Page) (i v : Nat) :
    p.set_page_number i v = p.set_payload i v := rfl

@[simp] theorem Page.set_value_eq (p : Page) (i v : Nat) :
    p.set_value i v = p.set_payload i v := rfl

@[simp] theorem Page.set_num_keys_page_type (p : Page) (n : Nat) :
    (p.set_num_keys n).page_type = p.page_type := rfl

@[simp] theorem Page.set_num_keys_num_keys (p : Page) (n : Nat) :
    (p.set_num_keys n).num_keys = n := rfl

@[simp] theorem Page.set_num_keys_extra (p : Page) (n : Nat) :
    (p.set_num_keys n).extra = p.extra := rfl

@[simp] theorem Page.set_num_keys_slots (p : Page) (n : Nat) :
    (p.set_num_keys n).slots = p.slots := rfl

@[simp] theorem Page.set_num_keys_key_capacity (p : Page) (n : Nat) :
    (p.set_num_keys n).key_capacity = p.key_capacity := rfl

@[simp] theorem Page.set_extra_page_type (p : Page) (n : Nat) :
    (p.set_extra_page_num n).page_type = p.page_type := rfl

@[simp] theorem Page.set_extra_num_keys (p : Page) (n : Nat) :
    (p.set_extra_page_num n).num_keys = p.num_keys := rfl

@[simp] theorem Page.set_extra_extra (p : Page) (n : Nat) :
    (p.set_extra_page_num n).extra = n := rfl

@[simp] theorem Page.set_extra_slots (p : Page) (n : Nat) :
    (p.set_extra_page_num n).slots = p.slots := rfl

@[simp] theorem Page.set_extra_key_capacity (p : Page) (n : Nat) :
    (p.set_extra_page_num n).key_capacity = p.key_capacity := rfl

@[simp] theorem Page.new_page_type (cap t : Nat) : (Page.new cap t).page_type = t := rfl

@[simp] theorem Page.new_num_keys (cap t : Nat) : (Page.new cap t).num_keys = 0 := rfl

@[simp] theorem Page.new_extra (cap t : Nat) : (Page.new cap t).extra = 0 := rfl

@[simp] theorem Page.new_key_capacity (cap t : Nat) : (Page.new cap t).key_capacity = cap := by
  simp [Page.new, Page.key_capacity]

theorem inner_ne_leaf : INNER_TYPE ≠ LEAF_TYPE := by decide

/-- Replacing a lineage entry shifts the separator total by the difference
of the key counts. -/
theorem lineageKeys_set (l : List Page) (i : Nat) (x : Page) (hi : i < l.length) :
    lineageKeys (l.set i x) + (l.getD i default).num_keys = lineageKeys l + x.num_keys := by
  induction l generalizing i with
  | nil => simp at hi
  | cons a t ih =>
    cases i with
    | zero => simp [lineageKeys]; omega
    | succ j =>
      have hj : j < t.length := by simpa using hi
      have := ih j hj
      simp only [List.set_cons_succ, lineageKeys, List.map_cons, List.sum_cons,
        List.getD_cons_succ] at this ⊢
      omega

/-- Appending to the lineage adds the appended page's key count. -/
theorem lineageKeys_append (l₁ l₂ : List Page) :
    lineageKeys (l₁ ++ l₂) = lineageKeys l₁ + lineageKeys l₂ := by
  simp [lineageKeys]

/-- Properties of `add_to_parent` needed by the loop invariant: the mutated
page counter advances once per flushed page, lineage pages stay inner pages
of the configured capacity, the lineage grows by at most one level, flushed
pages are inner pages, and the separator total plus capacity-per-flushed-page
grows by at most one. -/
theorem addToParent_spec (k : Key) (page_size : Nat) :
    ∀ fuel pn idx lineage, idx ≤ lineage.length →
      (∀ q, q ∈ lineage → q.page_type = INNER_TYPE ∧ q.key_capacity = keyCapacity page_size) →
      (addToParent k page_size fuel pn idx lineage).1 =
          pn + (addToParent k page_size fuel pn idx lineage).2.2.length ∧
        (∀ q, q ∈ (addToParent k page_size fuel pn idx lineage).2.1 →
          q.page_type = INNER_TYPE ∧ q.key_capacity = keyCapacity page_size) ∧
        (addToParent k page_size fuel pn idx lineage).2.1.length ≤ lineage.length + 1 ∧
        (∀ q, q ∈ (addToParent k page_size fuel pn idx lineage).2.2 →
          q.page_type = INNER_TYPE) ∧
        lineageKeys (addToParent k page_size fuel pn idx lineage).2.1 +
            keyCapacity page_size * (addToParent k page_size fuel pn idx lineage).2.2.length ≤
          lineageKeys lineage + 1 := by
  intro fuel
  induction fuel with
  | zero =>
    intro pn idx lineage _ hq
    refine ⟨by simp [addToParent], ?_, ?_, ?_, ?_⟩ <;> simp [addToParent]
    exact fun q hq2 => hq q hq2
  | succ fuel ih =>
    intro pn idx lineage hidx hq
    rw [addToParent]
    by_cases he : idx = lineage.length
    · simp only [if_pos he]
      refine ⟨by simp, ?_, by simp, by simp, ?_⟩
      · intro q hq2
        rcases List.mem_append.1 hq2 with h | h
        · exact hq q h
        · rcases List.mem_singleton.1 h with rfl
          constructor <;> simp
      · simp [lineageKeys_append, lineageKeys]
    · simp only [if_neg he]
      have hlt : idx < lineage.length := Nat.lt_of_le_of_ne hidx (by omega)
      have hmem : lineage.getD idx default ∈ lineage := by
        rw [List.getD_eq_getElem?_getD, List.getElem?_eq_getElem hlt]
        exact List.getElem_mem hlt
      obtain ⟨htype, hcap⟩ := hq _ hmem
      by_cases hfull : (lineage.getD idx default).num_keys <
          (lineage.getD idx default).key_capacity
      · -- insertion branch: one separator is added to the node at `idx`
        simp only [if_pos hfull]
        constructor
        · simp
        constructor
        · intro q hq2
          have hq3 : q ∈ lineage ∨ q = (if (lineage.getD idx default).num_keys <
              (lineage.getD idx default).key_capacity - 1 then
                ((lineage.getD idx default).set_key (lineage.getD idx default).num_keys
                  k).set_page_number ((lineage.getD idx default).num_keys + 1) pn
              else ((lineage.getD idx default).set_key
                (lineage.getD idx default).num_keys k).set_extra_page_num pn).set_num_keys
                ((lineage.getD idx default).num_keys + 1) := by
            have := List.mem_or_eq_of_mem_set (by simpa using hq2)
            simpa using this
          rcases hq3 with h | h
          · exact hq q h
          · rw [h]
            constructor
            · split <;> simpa using htype
            · split <;> simpa using hcap
        constructor
        · simp only [List.length_set]
          exact Nat.le_succ lineage.length
        constructor
        · simp
        · have hset := lineageKeys_set lineage idx
            ((if (lineage.getD idx default).num_keys <
              (lineage.getD idx default).key_capacity - 1 then
                ((lineage.getD idx default).set_key (lineage.getD idx default).num_keys
                  k).set_page_number ((lineage.getD idx default).num_keys + 1) pn
              else ((lineage.getD idx default).set_key
                (lineage.getD idx default).num_keys k).set_extra_page_num pn).set_num_keys
                ((lineage.getD idx default).num_keys + 1)) hlt
          have hx : ((if (lineage.getD idx default).num_keys <
              (lineage.getD idx default).key_capacity - 1 then
                ((lineage.getD idx default).set_key (lineage.getD idx default).num_keys
                  k).set_page_number ((lineage.getD idx default).num_keys + 1) pn
              else ((lineage.getD idx default).set_key
                (lineage.getD idx default).num_keys k).set_extra_page_num pn).set_num_keys
                ((lineage.getD idx default).num_keys + 1)).num_keys =
              (lineage.getD idx default).num_keys + 1 := by simp
          simp only [List.length_nil, Nat.mul_zero, Nat.add_zero]
          omega
      · -- overflow branch: the full node is flushed and the key moves up
        simp only [if_neg hfull]
        have hidx2 : idx + 1 ≤ (lineage.set idx (Page.new (keyCapacity page_size)
            INNER_TYPE)).length := by
          simp only [List.length_set]; omega
        have hq2 : ∀ q, q ∈ lineage.set idx (Page.new (keyCapacity page_size) INNER_TYPE) →
            q.page_type = INNER_TYPE ∧ q.key_capacity = keyCapacity page_size := by
          intro q hq2
          have hq3 := List.mem_or_eq_of_mem_set hq2
          rcases hq3 with h | h
          · exact hq q h
          · rw [h]
            exact ⟨rfl, by simp⟩
        obtain ⟨ih1, ih2, ih3, ih4, ih5⟩ := ih (pn + 1) (idx + 1) _ hidx2 hq2
        have hset := lineageKeys_set lineage idx
          (Page.new (keyCapacity page_size) INNER_TYPE) hlt
        have hge : keyCapacity page_size ≤ (lineage.getD idx default).num_keys := by
          rw [← hcap]; omega
        refine ⟨?_, ih2, ?_, ?_, ?_⟩
        · simp only [List.length_append, List.length_cons, List.length_nil]
          omega
        · have := ih3
          simp only [List.length_set] at this
          omega
        · intro q hq3
          rcases List.mem_append.1 hq3 with h | h
          · exact ih4 q h
          · rcases List.mem_singleton.1 h with rfl
            exact htype
        · simp only [List.length_append, List.length_cons, List.length_nil, Nat.zero_add,
            Nat.add_zero, Page.new_num_keys] at ih5 hset ⊢
          have hexp : keyCapacity page_size *
              ((addToParent k page_size fuel (pn + 1) (idx + 1) (lineage.set idx
                (Page.new (keyCapacity page_size) INNER_TYPE))).2.2.length + 1) =
              keyCapacity page_size * (addToParent k page_size fuel (pn + 1) (idx + 1)
                (lineage.set idx (Page.new (keyCapacity page_size)
                  INNER_TYPE))).2.2.length + keyCapacity page_size := by
            ring
          omega


@[simp] theorem fillLeafAux_page_type (chunk : List (Key × Nat)) :
    ∀ (leaf : Page) (i : Nat), (fillLeafAux leaf i chunk).page_type = leaf.page_type := by
  induction chunk with
  | nil => intro leaf i; rfl
  | cons a rest ih =>
    intro leaf i
    rcases a with ⟨k, v⟩
    rw [fillLeafAux, ih]
    simp

@[simp] theorem fillLeafAux_extra (chunk : List (Key × Nat)) :
    ∀ (leaf : Page) (i : Nat), (fillLeafAux leaf i chunk).extra = leaf.extra := by
  induction chunk with
  | nil => intro leaf i; rfl
  | cons a rest ih =>
    intro leaf i
    rcases a with ⟨k, v⟩
    rw [fillLeafAux, ih]
    simp

@[simp] theorem fillLeafAux_slots_length (chunk : List (Key × Nat)) :
    ∀ (leaf : Page) (i : Nat), (fillLeafAux leaf i chunk).slots.length = leaf.slots.length := by
  induction chunk with
  | nil => intro leaf i; rfl
  | cons a rest ih =>
    intro leaf i
    rcases a with ⟨k, v⟩
    rw [fillLeafAux, ih]
    simp

/-- Filling a non-empty chunk starting at `i` leaves `num_keys = i + |chunk|`. -/
theorem fillLeafAux_num_keys (chunk : List (Key × Nat)) :
    ∀ (leaf : Page) (i : Nat), chunk ≠ [] →
      (fillLeafAux leaf i chunk).num_keys = i + chunk.length := by
  induction chunk with
  | nil => intro leaf i h; exact absurd rfl h
  | cons a rest ih =>
    intro leaf i _
    rcases a with ⟨k, v⟩
    rw [fillLeafAux]
    by_cases hr : rest = []
    · rw [hr, fillLeafAux]
      simp
    · rw [ih _ _ hr]
      simp [List.length_cons]
      omega

/-- Writing key then value of the same slot replaces the whole slot. -/
theorem set_key_value_slots (leaf : Page) (i : Nat) (k : Key) (v : Nat)
    (hi : i < leaf.slots.length) :
    ((leaf.set_key i k).set_value i v).slots = leaf.slots.set i (k, v) := by
  unfold Page.set_key
  rw [if_pos hi]
  simp only [Page.set_value_eq, Page.set_payload, List.getD_eq_getElem?_getD]
  rw [List.getElem?_set_self (by simpa using hi)]
  simp [List.set_set]

/-- The slots of a filled leaf: the chunk overwrites positions `[i, i+|chunk|)`. -/
theorem fillLeafAux_slots (chunk : List (Key × Nat)) :
    ∀ (leaf : Page) (i : Nat), i + chunk.length ≤ leaf.slots.length →
      (fillLeafAux leaf i chunk).slots =
        leaf.slots.take i ++ chunk ++ leaf.slots.drop (i + chunk.length) := by
  induction chunk with
  | nil =>
    intro leaf i _
    simp [fillLeafAux, List.take_append_drop]
  | cons a rest ih =>
    intro leaf i hb
    rcases a with ⟨k, v⟩
    rw [fillLeafAux]
    have hi : i < leaf.slots.length := by
      simp only [List.length_cons] at hb; omega
    have hslots : (((leaf.set_key i k).set_value i v).set_num_keys (i + 1)).slots =
        leaf.slots.set i (k, v) := by
      rw [Page.set_num_keys_slots, set_key_value_slots leaf i k v hi]
    have hb2 : (i + 1) + rest.length ≤
        ((((leaf.set_key i k).set_value i v).set_num_keys (i + 1))).slots.length := by
      rw [hslots, List.length_set]
      simp only [List.length_cons] at hb; omega
    rw [ih _ _ hb2, hslots]
    have hset : leaf.slots.set i (k, v) =
        (leaf.slots.take i ++ [(k, v)]) ++ leaf.slots.drop (i + 1) := by
      rw [List.set_eq_take_append_cons_drop, if_pos hi]
      simp
    have hlen : (leaf.slots.take i ++ [(k, v)]).length = i + 1 := by
      simp [List.length_take]
      omega
    rw [hset, List.take_left' hlen]
    rw [show (i + 1) + rest.length = (leaf.slots.take i ++ [(k, v)]).length + rest.length by
      rw [hlen]]
    rw [List.drop_append rest.length, List.drop_drop]
    rw [show i + 1 + rest.length = i + (rest.length + 1) by omega]
    simp [List.append_assoc, List.length_cons]

/-- A chain is preserved when pages are appended to the file. -/
theorem ChainInv.append (ext : List Page) :
    ∀ (file : List Page) (last : Nat) (ps : List Nat),
      ChainInv file last ps → ChainInv (file ++ ext) last ps := by
  intro file last ps
  induction ps generalizing last with
  | nil => intro h; exact h
  | cons p ps ih =>
    intro h
    obtain ⟨h1, h2, h3, h4⟩ := h
    refine ⟨h1, by simp; omega, h3, ?_⟩
    rw [List.getD_append _ _ _ _ h2]
    exact ih _ h4

/-- Every chain member is a valid file position. -/
theorem ChainInv.mem_lt (file : List Page) :
    ∀ (ps : List Nat) (last : Nat), ChainInv file last ps →
      ∀ q, q ∈ ps → q < file.length := by
  intro ps
  induction ps with
  | nil => intro last _ q hq; simp at hq
  | cons p ps ih =>
    intro last h q hq
    obtain ⟨h1, h2, h3, h4⟩ := h
    rcases List.mem_cons.1 hq with rfl | hq2
    · exact h2
    · exact ih _ h4 q hq2

/-- With enough fuel, the sentinel-terminated walk follows exactly the chain. -/
theorem walkChain_of_chainInv (file : List Page) (hsize : file.length ≤ U32MAX) :
    ∀ (ps : List Nat) (last : Nat) (fuel : Nat), ChainInv file last ps →
      ps.length ≤ fuel → walkChain file fuel last = ps := by
  intro ps
  induction ps with
  | nil =>
    intro last fuel h _
    have h2 : last = U32MAX := h
    cases fuel with
    | zero => rfl
    | succ fuel => rw [walkChain, if_pos h2]
  | cons p ps ih =>
    intro last fuel h hf
    obtain ⟨rfl, h2, h3, h4⟩ := h
    cases fuel with
    | zero => simp at hf
    | succ fuel =>
      rw [walkChain, if_neg (by omega)]
      rw [ih _ fuel h4 (by simpa using hf)]

/-- Appending one page to a file extends its leaf positions exactly when the
page is a leaf. -/
theorem leafPositions_append_one (file : List Page) (pg : Page) :
    leafPositions (file ++ [pg]) =
      leafPositions file ++ (if pg.page_type = LEAF_TYPE then [file.length] else []) := by
  unfold leafPositions
  rw [List.length_append, List.length_cons, List.length_nil, List.range_succ,
    List.filter_append]
  congr 1
  · apply List.filter_congr
    intro i hi
    rw [List.mem_range] at hi
    rw [List.getD_append _ _ _ _ hi]
  · have hg : ((file ++ [pg]).getD file.length default) = pg := by
      rw [List.getD_append_right _ _ _ _ (le_refl _)]
      simp
    by_cases hp : pg.page_type = LEAF_TYPE <;> simp [List.filter, hg, hp]

/-- Appending inner pages leaves the leaf positions unchanged. -/
theorem leafPositions_append_inner (ext : List Page)
    (hext : ∀ q, q ∈ ext → q.page_type = INNER_TYPE) :
    ∀ (file : List Page), leafPositions (file ++ ext) = leafPositions file := by
  induction ext with
  | nil => intro file; simp
  | cons e ext ih =>
    intro file
    have he : e.page_type = INNER_TYPE := hext e (by simp)
    have hx : ∀ q, q ∈ ext → q.page_type = INNER_TYPE := fun q hq => hext q (by simp [hq])
    rw [show file ++ e :: ext = (file ++ [e]) ++ ext by simp]
    rw [ih hx, leafPositions_append_one]
    rw [if_neg (by rw [he]; exact inner_ne_leaf)]
    simp


/-- The last element of an append is read back at the prefix length. -/
theorem getD_append_length (A : List Page) (x : Page) (B : List Page) :
    ((A ++ x :: B)).getD A.length default = x := by
  rw [List.getD_append_right _ _ _ _ (le_refl _)]
  simp

/-- The leaf page the loop writes for a chunk: a leaf with exactly the chunk
as entries and the previous-leaf pointer in `extra`. -/
theorem builtLeaf_spec (page_size : Nat) (chunk : List (Key × Nat)) (ll : Nat)
    (hne : chunk ≠ []) (hlen : chunk.length ≤ keyCapacity page_size) :
    ((fillLeafAux (Page.new (keyCapacity page_size) LEAF_TYPE) 0 chunk).set_extra_page_num
        ll).page_type = LEAF_TYPE ∧
      ((fillLeafAux (Page.new (keyCapacity page_size) LEAF_TYPE) 0 chunk).set_extra_page_num
        ll).num_keys = chunk.length ∧
      ((fillLeafAux (Page.new (keyCapacity page_size) LEAF_TYPE) 0 chunk).set_extra_page_num
        ll).extra = ll ∧
      leafEntries ((fillLeafAux (Page.new (keyCapacity page_size) LEAF_TYPE) 0
        chunk).set_extra_page_num ll) = chunk := by
  have hnum : ((fillLeafAux (Page.new (keyCapacity page_size) LEAF_TYPE) 0
      chunk).set_extra_page_num ll).num_keys = chunk.length := by
    rw [Page.set_extra_num_keys, fillLeafAux_num_keys _ _ _ hne]
    omega
  refine ⟨by simp, hnum, by simp, ?_⟩
  unfold leafEntries
  rw [Page.set_extra_slots, hnum,
    fillLeafAux_slots _ _ _ (by simp [Page.new]; omega)]
  simp [List.take_left']

set_option maxHeartbeats 1000000

/-- The main loop of `write_from_iterator` preserves the loop invariant while
consuming the source.  The bound on the total number of entries keeps the
page counter inside u32 range (its value in Rust is a u32). -/
theorem buildLoop_inv (page_size : Nat) (hcap : 1 ≤ keyCapacity page_size) :
    ∀ fuel src done st, src.length ≤ fuel →
      2 * (done.length + src.length) ≤ U32MAX →
      LoopInv page_size done st →
      LoopInv page_size (done ++ src) (buildLoop page_size fuel src st) := by
  intro fuel
  induction fuel with
  | zero =>
    intro src done st hf _ hinv
    have hsrc : src = [] := by
      cases src with
      | nil => rfl
      | cons a l => simp at hf
    rw [hsrc]
    simpa [buildLoop] using hinv
  | succ fuel ih =>
    intro src done st hf hbound hinv
    cases src with
    | nil => simpa [buildLoop] using hinv
    | cons a l =>
      rw [buildLoop]
      rw [if_neg (by omega : ¬keyCapacity page_size = 0)]
      -- facts about the chunk taken for this leaf
      have hchunk_ne : (a :: l).take (keyCapacity page_size) ≠ [] := by
        rw [List.take_cons (by omega)]
        simp
      have hchunk_len : ((a :: l).take (keyCapacity page_size)).length ≤
          keyCapacity page_size := by
        simp [List.length_take]
      have hsplit : (a :: l).take (keyCapacity page_size) ++
          (a :: l).drop (keyCapacity page_size) = a :: l := List.take_append_drop _ _
      have hlens : ((a :: l).take (keyCapacity page_size)).length +
          ((a :: l).drop (keyCapacity page_size)).length = (a :: l).length := by
        rw [← List.length_append, hsplit]
      have hrest_len : ((a :: l).drop (keyCapacity page_size)).length ≤ fuel := by
        simp only [List.length_drop, List.length_cons] at *
        omega
      rcases hinv with ⟨hdone, hst⟩ | ⟨hne, hll, hflen, hphi, hllen, hlin, ps, hchain,
          hpos, hentries, hnk⟩
      · -- no leaf written yet: first iteration writes the first leaf
        subst hdone
        rw [hst]
        rw [if_neg (by simp [initialBuildState] : ¬(initialBuildState
          page_size).last_leaf < U32MAX)]
        obtain ⟨hlt, hln, hlx, hle⟩ := builtLeaf_spec page_size
          ((a :: l).take (keyCapacity page_size)) U32MAX hchunk_ne hchunk_len
        have hinv2 : LoopInv page_size ((a :: l).take (keyCapacity page_size))
            { file := (initialBuildState page_size).file ++
                [(fillLeafAux (initialBuildState page_size).leaf_buf 0
                  ((a :: l).take (keyCapacity page_size))).set_extra_page_num
                  (initialBuildState page_size).last_leaf]
              leaf_buf := (fillLeafAux (initialBuildState page_size).leaf_buf 0
                  ((a :: l).take (keyCapacity page_size))).set_extra_page_num
                  (initialBuildState page_size).last_leaf
              page_count := (initialBuildState page_size).page_count
              last_leaf := (initialBuildState page_size).page_count
              lineage := (initialBuildState page_size).lineage } := by
          refine Or.inr ⟨hchunk_ne, rfl, by simp [initialBuildState], ?_, ?_, ?_, ?_⟩
          · simp only [initialBuildState, List.nil_append, List.length_cons,
              List.length_nil, lineageKeys, List.map_nil, List.sum_nil]
            have : 1 ≤ ((a :: l).take (keyCapacity page_size)).length := by
              cases h : (a :: l).take (keyCapacity page_size) with
              | nil => exact absurd h hchunk_ne
              | cons x t => simp
            omega
          · simp [initialBuildState]
          · simp [initialBuildState]
          · refine ⟨[0], ?_, ?_, ?_, ?_⟩
            · refine ⟨rfl, by simp [initialBuildState], by simp, ?_⟩
              exact hlx
            · simp only [List.reverse_cons, List.reverse_nil, List.nil_append]
              unfold leafPositions
              simp only [initialBuildState, List.nil_append, List.length_cons,
                List.length_nil]
              rw [show List.range 1 = [0] from rfl]
              simp [List.filter, hlt]
            · simp only [List.reverse_cons, List.reverse_nil, List.nil_append,
                List.map_cons, List.map_nil, List.flatten_cons, List.flatten_nil,
                List.append_nil]
              simp only [initialBuildState, List.nil_append, List.getD_cons_zero]
              exact hle
            · intro q hq
              rcases List.mem_singleton.1 hq with rfl
              simp only [initialBuildState, List.nil_append, List.getD_cons_zero]
              rw [hln]
              cases h : (a :: l).take (keyCapacity page_size) with
              | nil => exact absurd h hchunk_ne
              | cons x t => simp
        have hgoal := ih ((a :: l).drop (keyCapacity page_size))
          ((a :: l).take (keyCapacity page_size)) _ hrest_len
          (by simp only [List.length_cons, List.length_nil] at hbound hlens ⊢; omega) hinv2
        rw [hsplit] at hgoal
        rw [List.nil_append]
        exact hgoal
      · -- a leaf exists: propagate its first key, then write the next leaf
        have hpc_lt : st.page_count < U32MAX := by
          simp only [List.length_cons] at hbound
          omega
        rw [if_pos (by rw [hll]; exact hpc_lt)]
        obtain ⟨hr1, hr2, hr3, hr4, hr5⟩ := addToParent_spec (st.leaf_buf.key 0) page_size
          (st.lineage.length + 1) st.page_count 0 st.lineage (Nat.zero_le _) hlin
        obtain ⟨hlt, hln, hlx, hle⟩ := builtLeaf_spec page_size
          ((a :: l).take (keyCapacity page_size)) st.last_leaf hchunk_ne hchunk_len
        have hFpos : (addToParent (st.leaf_buf.key 0) page_size (st.lineage.length + 1)
            st.page_count 0 st.lineage).2.2.length ≤ keyCapacity page_size *
            (addToParent (st.leaf_buf.key 0) page_size (st.lineage.length + 1)
              st.page_count 0 st.lineage).2.2.length :=
          Nat.le_mul_of_pos_left _ (by omega)
        have hinv2 : LoopInv page_size (done ++ (a :: l).take (keyCapacity page_size))
            { file := (st.file ++ (addToParent (st.leaf_buf.key 0) page_size
                  (st.lineage.length + 1) st.page_count 0 st.lineage).2.2.reverse) ++
                [(fillLeafAux (Page.new (keyCapacity page_size) LEAF_TYPE) 0
                  ((a :: l).take (keyCapacity page_size))).set_extra_page_num st.last_leaf]
              leaf_buf := (fillLeafAux (Page.new (keyCapacity page_size) LEAF_TYPE) 0
                  ((a :: l).take (keyCapacity page_size))).set_extra_page_num st.last_leaf
              page_count := (addToParent (st.leaf_buf.key 0) page_size
                  (st.lineage.length + 1) st.page_count 0 st.lineage).1 + 1
              last_leaf := (addToParent (st.leaf_buf.key 0) page_size
                  (st.lineage.length + 1) st.page_count 0 st.lineage).1 + 1
              lineage := (addToParent (st.leaf_buf.key 0) page_size
                  (st.lineage.length + 1) st.page_count 0 st.lineage).2.1 } := by
          have hq_pos : (st.file ++ (addToParent (st.leaf_buf.key 0) page_size
              (st.lineage.length + 1) st.page_count 0 st.lineage).2.2.reverse).length =
              (addToParent (st.leaf_buf.key 0) page_size (st.lineage.length + 1)
                st.page_count 0 st.lineage).1 + 1 := by
            rw [List.length_append, List.length_reverse, hr1]
            omega
          have hchunk_pos : 1 ≤ ((a :: l).take (keyCapacity page_size)).length := by
            cases h : (a :: l).take (keyCapacity page_size) with
            | nil => exact absurd h hchunk_ne
            | cons x t => simp
          refine Or.inr ⟨by simp [hne], rfl, ?_, ?_, ?_, hr2, ?_⟩
          · simp only [List.length_append, List.length_cons, List.length_nil,
              List.length_reverse]
            omega
          · simp only [List.length_append, List.length_cons, List.length_nil,
              List.length_reverse, lineageKeys] at hphi hr5 ⊢
            omega
          · simp only [List.length_append, List.length_cons, List.length_nil,
              List.length_reverse]
            omega
          · refine ⟨((addToParent (st.leaf_buf.key 0) page_size (st.lineage.length + 1)
              st.page_count 0 st.lineage).1 + 1) :: ps, ?_, ?_, ?_, ?_⟩
            · refine ⟨rfl, ?_, ?_, ?_⟩
              · simp only [List.length_append, List.length_cons, List.length_nil,
                  List.length_reverse]
                omega
              · intro q hq
                have := ChainInv.mem_lt st.file ps st.last_leaf hchain q hq
                omega
              · rw [← hq_pos, getD_append_length, hlx]
                have := ChainInv.append ((addToParent (st.leaf_buf.key 0) page_size
                  (st.lineage.length + 1) st.page_count 0 st.lineage).2.2.reverse ++
                  [(fillLeafAux (Page.new (keyCapacity page_size) LEAF_TYPE) 0
                    ((a :: l).take (keyCapacity page_size))).set_extra_page_num
                    st.last_leaf]) st.file st.last_leaf ps hchain
                simpa [List.append_assoc] using this
            · rw [List.reverse_cons, hpos]
              have hinner : ∀ q, q ∈ (addToParent (st.leaf_buf.key 0) page_size
                  (st.lineage.length + 1) st.page_count 0 st.lineage).2.2.reverse →
                  q.page_type = INNER_TYPE := by
                intro q hq
                exact hr4 q (List.mem_reverse.1 hq)
              rw [show (st.file ++ (addToParent (st.leaf_buf.key 0) page_size
                  (st.lineage.length + 1) st.page_count 0 st.lineage).2.2.reverse) ++
                  [(fillLeafAux (Page.new (keyCapacity page_size) LEAF_TYPE) 0
                    ((a :: l).take (keyCapacity page_size))).set_extra_page_num
                    st.last_leaf] = (st.file ++ (addToParent (st.leaf_buf.key 0) page_size
                  (st.lineage.length + 1) st.page_count 0 st.lineage).2.2.reverse) ++
                  [(fillLeafAux (Page.new (keyCapacity page_size) LEAF_TYPE) 0
                    ((a :: l).take (keyCapacity page_size))).set_extra_page_num
                    st.last_leaf] from rfl]
              rw [leafPositions_append_one, leafPositions_append_inner _ hinner, if_pos hlt,
                hq_pos]
            · rw [List.reverse_cons, List.map_append, List.flatten_append]
              have hmap : List.map (fun q => leafEntries
                  (((st.file ++ (addToParent (st.leaf_buf.key 0) page_size
                    (st.lineage.length + 1) st.page_count 0 st.lineage).2.2.reverse) ++
                    [(fillLeafAux (Page.new (keyCapacity page_size) LEAF_TYPE) 0
                      ((a :: l).take (keyCapacity page_size))).set_extra_page_num
                      st.last_leaf]).getD q default)) ps.reverse =
                  List.map (fun q => leafEntries (st.file.getD q default)) ps.reverse := by
                apply List.map_congr_left
                intro q hq
                have hqlt : q < st.file.length :=
                  ChainInv.mem_lt st.file ps st.last_leaf hchain q (List.mem_reverse.1 hq)
                rw [List.append_assoc, List.getD_append _ _ _ _ hqlt]
              rw [hmap, hentries]
              simp only [List.map_cons, List.map_nil, List.flatten_cons, List.flatten_nil,
                List.append_nil]
              rw [← hq_pos, getD_append_length, hle]
            · intro q hq
              rcases List.mem_cons.1 hq with rfl | hq2
              · rw [← hq_pos, getD_append_length, hln]
                omega
              · have hqlt : q < st.file.length :=
                  ChainInv.mem_lt st.file ps st.last_leaf hchain q hq2
                rw [List.append_assoc, List.getD_append _ _ _ _ hqlt]
                exact hnk q hq2
        have hgoal := ih ((a :: l).drop (keyCapacity page_size))
          (done ++ (a :: l).take (keyCapacity page_size)) _ hrest_len
          (by
            simp only [List.length_append, List.length_cons, List.length_nil] at hbound hlens ⊢
            omega) hinv2
        rw [show done ++ a :: l = (done ++ (a :: l).take (keyCapacity page_size)) ++
          (a :: l).drop (keyCapacity page_size) by rw [List.append_assoc, hsplit]]
        exact hgoal


/-- The finalisation loop only appends inner pages taken from the lineage. -/
theorem finalizeLoop_file (page_size : Nat) :
    ∀ fuel idx st st', finalizeLoop page_size fuel idx st = some st' →
      (∀ q, q ∈ st.lineage → q.page_type = INNER_TYPE) →
      ∃ ext, st'.file = st.file ++ ext ∧ (∀ q, q ∈ ext → q.page_type = INNER_TYPE) ∧
        ext.length ≤ st.lineage.length - idx := by
  intro fuel
  induction fuel with
  | zero =>
    intro idx st st' h _
    simp [finalizeLoop] at h
  | succ fuel ih =>
    intro idx st st' h hlin
    rw [finalizeLoop] at h
    by_cases hidx : idx < st.lineage.length
    · rw [if_pos hidx] at h
      by_cases hnk : PAGE_HEADER_SIZE +
          KEY_VALUE_SIZE * (st.lineage.getD idx default).num_keys + 12 ≤ page_size
      · rw [if_pos hnk] at h
        have hmem : st.lineage.getD idx default ∈ st.lineage := by
          rw [List.getD_eq_getElem?_getD, List.getElem?_eq_getElem hidx]
          exact List.getElem_mem hidx
        have htype := hlin _ hmem
        have hlin2 : ∀ q, q ∈ st.lineage.set idx
            ((if (st.lineage.getD idx default).num_keys < keyCapacity page_size - 1
              then ((st.lineage.getD idx default).set_key
                (st.lineage.getD idx default).num_keys (st.leaf_buf.key 0)).set_page_number
                ((st.lineage.getD idx default).num_keys + 1) (st.page_count - 1)
              else ((st.lineage.getD idx default).set_key
                (st.lineage.getD idx default).num_keys
                (st.leaf_buf.key 0)).set_extra_page_num (st.page_count - 1)).set_num_keys
                ((st.lineage.getD idx default).num_keys + 1)) →
            q.page_type = INNER_TYPE := by
          intro q hq
          rcases List.mem_or_eq_of_mem_set hq with h2 | h2
          · exact hlin q h2
          · rw [h2]
            split <;> simpa using htype
        obtain ⟨ext2, he1, he2, he3⟩ := ih (idx + 1) _ st' h hlin2
        refine ⟨(if (st.lineage.getD idx default).num_keys < keyCapacity page_size - 1
          then ((st.lineage.getD idx default).set_key
            (st.lineage.getD idx default).num_keys (st.leaf_buf.key 0)).set_page_number
            ((st.lineage.getD idx default).num_keys + 1) (st.page_count - 1)
          else ((st.lineage.getD idx default).set_key
            (st.lineage.getD idx default).num_keys
            (st.leaf_buf.key 0)).set_extra_page_num (st.page_count - 1)).set_num_keys
            ((st.lineage.getD idx default).num_keys + 1) :: ext2, ?_, ?_, ?_⟩
        · rw [he1]
          simp [List.append_assoc]
        · intro q hq
          rcases List.mem_cons.1 hq with rfl | hq2
          · split <;> simpa using htype
          · exact he2 q hq2
        · simp only [List.length_cons, List.length_set] at he3 ⊢
          omega
      · rw [if_neg hnk] at h
        exact absurd h (by simp)
    · rw [if_neg hidx] at h
      obtain rfl := Option.some.inj h
      exact ⟨[], by simp, by simp, by simp⟩

/-- C6 (amended with the completion hypothesis): building from a non-empty,
strictly ascending source whose build completes, then walking the leaf chain
from the last-written leaf via the `extra` back-pointers until the sentinel,
visits exactly the leaf pages of the file in reverse write order, and
enumerating each visited leaf's entries from last to first yields exactly the
source entries in reverse.  The size bound keeps the page counter inside u32,
where the Rust counter lives. -/
theorem c6_reverse_walk (page_size : Nat) (src : List (Key × Nat)) (file : List Page)
    (hdr : FileHeader) (hcap : 1 ≤ keyCapacity page_size) (hne : src ≠ [])
    (_hasc : keysStrictAscending src) (hsize : 4 * src.length ≤ U32MAX)
    (hbuild : writeFromIterator page_size src = some (file, hdr)) :
    walkChain file file.length
        (buildLoop page_size src.length src (initialBuildState page_size)).last_leaf =
      (leafPositions file).reverse ∧
    (leafPositions file).Nodup ∧
    reverseWalkEntries file file.length
        (buildLoop page_size src.length src (initialBuildState page_size)).last_leaf =
      src.reverse := by
  have hinv := buildLoop_inv page_size hcap src.length src [] (initialBuildState page_size)
    (le_refl _) (by simp only [List.length_nil]; omega) (Or.inl ⟨rfl, rfl⟩)
  rw [List.nil_append] at hinv
  rcases hinv with ⟨habs, _⟩ | ⟨_, hll, hflen, hphi, hllen, hlin, ps, hchain, hpos,
    hentries, hnk⟩
  · exact absurd habs hne
  · simp only [writeFromIterator, Option.map_eq_some'] at hbuild
    obtain ⟨st2, hfin, hpair⟩ := hbuild
    have hfile : file = st2.file := by
      have := congrArg Prod.fst hpair
      simpa using this.symm
    obtain ⟨ext, hext1, hext2, hext3⟩ := finalizeLoop_file page_size
      ((buildLoop page_size src.length src (initialBuildState page_size)).lineage.length + 1)
      0 _ st2 hfin (fun q hq => (hlin q hq).1)
    have hfile2 : file =
        (buildLoop page_size src.length src (initialBuildState page_size)).file ++ ext := by
      rw [hfile, hext1]
    have hext3b : ext.length ≤ (buildLoop page_size src.length src
        (initialBuildState page_size)).lineage.length := by simpa using hext3
    have hlenfile : (buildLoop page_size src.length src
        (initialBuildState page_size)).file.length ≤ 2 * src.length := by omega
    have hU : file.length ≤ U32MAX := by
      rw [hfile2, List.length_append]
      omega
    have hpslen : ps.length ≤ file.length := by
      have h1 : ps.length = (leafPositions (buildLoop page_size src.length src
          (initialBuildState page_size)).file).length := by
        rw [← hpos, List.length_reverse]
      have h2 := List.length_filter_le (fun i => decide (((buildLoop page_size src.length
          src (initialBuildState page_size)).file.getD i default).page_type = LEAF_TYPE))
        (List.range (buildLoop page_size src.length src
          (initialBuildState page_size)).file.length)
      rw [List.length_range] at h2
      rw [hfile2, List.length_append]
      unfold leafPositions at h1
      omega
    have hchainF : ChainInv file (buildLoop page_size src.length src
        (initialBuildState page_size)).last_leaf ps := by
      rw [hfile2]
      exact ChainInv.append ext _ _ ps hchain
    have hwalk := walkChain_of_chainInv file hU ps _ file.length hchainF hpslen
    have hposF : leafPositions file = ps.reverse := by
      rw [hfile2, leafPositions_append_inner ext hext2, hpos]
    refine ⟨?_, ?_, ?_⟩
    · rw [hwalk, hposF, List.reverse_reverse]
    · rw [hposF, hpos]
      unfold leafPositions
      exact (List.nodup_range _).filter _
    · unfold reverseWalkEntries
      rw [hwalk, List.flatMap_def]
      have hmap : List.map (fun p => (leafEntries (file.getD p default)).reverse) ps =
          List.map (fun p => (leafEntries ((buildLoop page_size src.length src
            (initialBuildState page_size)).file.getD p default)).reverse) ps := by
        apply List.map_congr_left
        intro q hq
        rw [hfile2, List.getD_append _ _ _ _ (ChainInv.mem_lt _ ps _ hchain q hq)]
      rw [hmap]
      have hrev := congrArg List.reverse hentries
      rw [List.reverse_flatten, List.map_map, ← List.map_reverse,
        List.reverse_reverse] at hrev
      rw [← hrev]
      rfl


/-- C6 witness: the 7-entry build at page size 60 (K = 2) satisfies every
hypothesis of the amended claim — the finalisation loop meets `lineage[0]`
full (2 = K separators) and completes by writing the last separator into
the page's 12 slack bytes — and its reverse walk yields the entries
reversed. -/
theorem c6_reverse_walk_witness :
    keysStrictAscending data7 ∧
    (buildLoop pageSize60 data7.length data7 (initialBuildState pageSize60)).lineage.map
        Page.num_keys = [keyCapacity pageSize60] ∧
    (writeFromIterator pageSize60 data7).isSome = true ∧
    reverseWalkEntries file7 file7.length
        (buildLoop pageSize60 data7.length data7 (initialBuildState pageSize60)).last_leaf =
      data7.reverse :=
  ⟨by decide, by decide, by decide,
    (c6_reverse_walk pageSize60 data7 file7 header7 (by decide) (by decide)
      (by decide) (by decide) (by decide)).2.2⟩

/-- C10: every leaf page written by the bulk loader from a non-empty source
holds at least one entry, so the u32 subtractions `num_keys() - 1` in
`BTree::query`'s leaf-index clamp and in the iterator's move to the
predecessor leaf (both modelled by `u32sub1 num_keys`) do not wrap; on a
leaf with `num_keys = 0` the subtraction underflows to `0xFFFF_FFFF`. -/
theorem c10_every_leaf_nonempty :
    (∀ page_size src, 1 ≤ keyCapacity page_size → src ≠ [] → 2 * src.length ≤ U32MAX →
      ∀ pg, pg ∈ (buildLoop page_size src.length src (initialBuildState page_size)).file →
        pg.page_type = LEAF_TYPE → 1 ≤ pg.num_keys) ∧
    (∀ n, 1 ≤ n → n ≤ U32MAX → u32sub1 n = n - 1) ∧
    u32sub1 0 = U32MAX := by
  refine ⟨?_, ?_, ?_⟩
  · intro page_size src hcap hne hbound pg hpg htype
    have hinv := buildLoop_inv page_size hcap src.length src [] (initialBuildState page_size)
      (le_refl _) (by simp only [List.length_nil]; omega) (Or.inl ⟨rfl, rfl⟩)
    rw [List.nil_append] at hinv
    rcases hinv with ⟨habs, _⟩ | ⟨_, _, _, _, _, _, ps, hchain, hpos, _, hnk⟩
    · exact absurd habs hne
    · obtain ⟨i, hi, hgi⟩ := List.mem_iff_getElem.1 hpg
      have hgd : (buildLoop page_size src.length src
          (initialBuildState page_size)).file.getD i default = pg := by
        rw [List.getD_eq_getElem?_getD, List.getElem?_eq_getElem hi, Option.getD_some, hgi]
      have hmem : i ∈ leafPositions (buildLoop page_size src.length src
          (initialBuildState page_size)).file := by
        unfold leafPositions
        rw [List.mem_filter, List.mem_range]
        exact ⟨hi, by rw [hgd, htype]; simp⟩
      rw [← hpos, List.mem_reverse] at hmem
      have := hnk i hmem
      rw [hgd] at this
      exact this
  · intro n h1 h2
    simp only [u32sub1, U32MAX] at *
    omega
  · decide

/-- C10 witness: the §8 build satisfies the hypotheses, and every leaf page
of its loop output is non-empty. -/
theorem c10_every_leaf_nonempty_witness :
    (1 ≤ keyCapacity pageSize18 ∧ data18 ≠ [] ∧ 2 * data18.length ≤ U32MAX) ∧
    (∀ pg, pg ∈ (buildLoop pageSize18 data18.length data18
        (initialBuildState pageSize18)).file → pg.page_type = LEAF_TYPE →
        1 ≤ pg.num_keys) :=
  ⟨⟨by decide, by decide, by decide⟩,
    c10_every_leaf_nonempty.1 pageSize18 data18 (by decide) (by decide) (by decide)⟩

end FinDb
